import Mathlib

/-!
# Smart Bookmarker — verification development

A shallow embedding of the classification-and-organization pipeline of the
Smart Bookmark Organizer extension (background service worker and AI service),
with theorems settling the specification claims.

Conventions of the embedding:
* JavaScript strings are `String`; absent/`null`/`undefined` string fields are
  modelled as `""` (every read in the source normalises them with `|| ''` or
  only tests truthiness, so the distinction is unobservable).
* JavaScript objects used as maps are association lists `List (String × α)`
  with JS insertion-order semantics (`objGet`, `objSet`, `objDelete`,
  `objKeys`).
* Browser APIs (storage, bookmark tree, network fetch, remote model calls)
  are external collaborators; their responses enter the model as explicit
  parameters (oracles).  Everything the repository itself computes is
  translated from the source.
* All string operations are implemented on `List Char` so that every
  definition evaluates inside the kernel.
-/

namespace SmartBookmarker

/-- JS `a || b` for strings: `""` is falsy. -/
def jsOr (a b : String) : String := if a = "" then b else a

/-- ASCII lowering of one character (models `String.prototype.toLowerCase`
on the ASCII inputs the repository manipulates). -/
def lowChar (c : Char) : Char :=
  if 'A' ≤ c ∧ c ≤ 'Z' then Char.ofNat (c.toNat + 32) else c

/-- `s.toLowerCase()`. -/
def lowerStr (s : String) : String := ⟨s.data.map lowChar⟩

/-- Whitespace for `String.prototype.trim` (ASCII subset). -/
def wsChar (c : Char) : Bool := c == ' ' || c == '\t' || c == '\n' || c == '\r'

def trimChars (l : List Char) : List Char :=
  ((l.dropWhile wsChar).reverse.dropWhile wsChar).reverse

/-- `s.trim()`. -/
def trimStr (s : String) : String := ⟨trimChars s.data⟩

/-- `s.slice(0, n)`. -/
def takeStr (s : String) (n : Nat) : String := ⟨s.data.take n⟩

/-- Boolean prefix test on character lists. -/
def isPrefixB : List Char → List Char → Bool
  | [], _ => true
  | _ :: _, [] => false
  | a :: as, b :: bs => a == b && isPrefixB as bs

/-- Boolean substring test (`hay.includes(pat)`), on character lists. -/
def infixB (pat : List Char) : List Char → Bool
  | [] => isPrefixB pat []
  | hay@(_ :: t) => isPrefixB pat hay || infixB pat t

/-- `hay.includes(pat)`. -/
def includesStr (hay pat : String) : Bool := infixB pat.data hay.data

/-- Case-insensitive prefix test (for `/.../i` regex literals). -/
def isPrefixCI : List Char → List Char → Bool
  | [], _ => true
  | _ :: _, [] => false
  | a :: as, b :: bs => lowChar a == lowChar b && isPrefixCI as bs

/-- Find the first case-insensitive occurrence of `pat`; returns the suffix
of the haystack that starts right after the matched pattern. -/
def findCISuffix (pat : List Char) : List Char → Option (List Char)
  | [] => if isPrefixB pat [] then some [] else none
  | hay@(_ :: t) =>
    if isPrefixCI pat hay then some (hay.drop pat.length) else findCISuffix pat t

/-- JS-object read: `obj[k]` (`none` when the key is absent). -/
def objGet (l : List (String × α)) (k : String) : Option α :=
  (l.find? (fun p => p.1 == k)).map (·.2)

/-- JS `k in obj` (presence of the key). -/
def hasKey (l : List (String × α)) (k : String) : Bool := (objGet l k).isSome

/-- JS-object write `obj[k] = v`: an existing key keeps its position, a new
key is appended (JS property insertion order). -/
def objSet (l : List (String × α)) (k : String) (v : α) : List (String × α) :=
  if hasKey l k then l.map (fun p => if p.1 == k then (k, v) else p) else l ++ [(k, v)]

/-- JS `delete obj[k]`. -/
def objDelete (l : List (String × α)) (k : String) : List (String × α) :=
  l.filter (fun p => ¬ p.1 == k)

/-- `Object.keys(obj)` (insertion order). -/
def objKeys (l : List (String × α)) : List String := l.map (·.1)

/-- `Object.entries(obj)`. -/
def objEntries (l : List (String × α)) : List (String × α) := l

/-- `parts.join(sep)`. -/
def joinWith (sep : String) : List String → String
  | [] => ""
  | [s] => s
  | s :: rest => s ++ sep ++ joinWith sep rest

/-- `s.split(sep)` for a one-character separator. -/
def splitOnChar (sep : Char) : List Char → List (List Char)
  | [] => [[]]
  | c :: rest =>
    match splitOnChar sep rest with
    | [] => [[]]
    | h :: t => if c == sep then [] :: h :: t else (c :: h) :: t

/-- Decimal rendering of a number (kernel-computable `String(n)`). -/
def natToStrAux : Nat → Nat → List Char
  | 0, _ => []
  | fuel + 1, n =>
    if n < 10 then [Char.ofNat (48 + n)]
    else natToStrAux fuel (n / 10) ++ [Char.ofNat (48 + n % 10)]

def natToStr (n : Nat) : String := ⟨natToStrAux (n + 1) n⟩

/-!
## The WHATWG `URL` collaborator

`normalizeUrl` and the classifier parse URLs with the browser built-in
`new URL(...)` and re-serialise with `toString()`.  The built-in is an
external collaborator; we model the fragment of its behaviour exercised by
the repository's bookmark URLs: `http`/`https` URLs of the shape
`scheme://host[:port]/path[?query][#fragment]` without userinfo, IPv6
brackets, percent-encoding or dot-segment normalisation.  Hosts are
lowercased, default ports are dropped, and — matching the state of a URL
object after any `searchParams.delete` call has run — the query is kept as a
parsed parameter list and re-serialised as `k=v` pairs joined by `&` (absent
`=` serialises as `k=`), with the `?` omitted when no parameter remains.
Inputs outside this fragment fail to parse and take the source's `catch`
branch. -/

structure UrlParts where
  scheme : String
  host : String
  port : Option Nat := none
  path : String := ""
  params : List (String × String) := []
  fragment : Option String := none
deriving DecidableEq

/-- Digits-only string to number (the URL parser rejects non-numeric ports). -/
def digitsToNat? : List Char → Option Nat
  | [] => some 0
  | c :: rest =>
    if c.isDigit then
      (digitsToNat? rest).map (fun n => (c.toNat - 48) * 10 ^ rest.length + n)
    else none

/-- Characters that terminate the authority component. -/
def authEnd (c : Char) : Bool := c == '/' || c == '?' || c == '#'

/-- Parse the `host[:port]` authority text. -/
def parseAuthority (scheme : String) (auth : List Char) : Option (String × Option Nat) :=
  if auth.any (fun c => c == '@' || c == '[') then none
  else
    let hostCs := auth.takeWhile (fun c => c != ':')
    let rest := auth.dropWhile (fun c => c != ':')
    if hostCs.isEmpty then none
    else
      match rest with
      | [] => some (⟨hostCs.map lowChar⟩, none)
      | _ :: portCs =>
        match digitsToNat? portCs with
        | none => none
        | some p =>
          if portCs.isEmpty then none
          else if (scheme = "http" ∧ p = 80) ∨ (scheme = "https" ∧ p = 443) then
            some (⟨hostCs.map lowChar⟩, none)
          else some (⟨hostCs.map lowChar⟩, some p)

/-- Split a query string on `&` and then each piece at its first `=`
(`URLSearchParams` parsing, sans percent-decoding; empty pieces dropped). -/
def parseParams (cs : List Char) : List (String × String) :=
  (splitOnChar '&' cs).filterMap (fun seg =>
    if seg.isEmpty then none
    else
      let k := seg.takeWhile (fun c => c != '=')
      let v := seg.dropWhile (fun c => c != '=')
      match v with
      | [] => some (⟨k⟩, "")
      | _ :: vrest => some (⟨k⟩, ⟨vrest⟩))

/-- Parse path, query and fragment (the text after the authority). -/
def parseTail (cs : List Char) : String × List (String × String) × Option String :=
  let pathCs := cs.takeWhile (fun c => ¬ (c == '?' || c == '#'))
  let rest := cs.dropWhile (fun c => ¬ (c == '?' || c == '#'))
  match rest with
  | '?' :: r =>
    let qCs := r.takeWhile (fun c => c != '#')
    let frag := r.dropWhile (fun c => c != '#')
    (⟨pathCs⟩, parseParams qCs,
      match frag with
      | [] => none
      | _ :: f => some ⟨f⟩)
  | '#' :: f => (⟨pathCs⟩, [], some ⟨f⟩)
  | _ => (⟨pathCs⟩, [], none)

/-- `new URL(url)` on the modelled fragment. -/
def parseUrl (url : String) : Option UrlParts :=
  let cs := url.data
  let schemeCs := cs.takeWhile (fun c => c != ':')
  let rest := cs.dropWhile (fun c => c != ':')
  match rest with
  | ':' :: '/' :: '/' :: rest2 =>
    let scheme := lowerStr ⟨schemeCs⟩
    if scheme = "http" ∨ scheme = "https" then
      let auth := rest2.takeWhile (fun c => ¬ authEnd c)
      let tail := rest2.dropWhile (fun c => ¬ authEnd c)
      match parseAuthority scheme auth with
      | none => none
      | some (host, port) =>
        let (path, params, fragment) := parseTail tail
        some { scheme := scheme, host := host, port := port, path := path,
               params := params, fragment := fragment }
    else none
  | _ => none

/-- `url.pathname` (a special-scheme URL with an empty path serialises `/`). -/
def UrlParts.pathname (u : UrlParts) : String := if u.path = "" then "/" else u.path

/-- Serialisation of the parameter list (`URLSearchParams.toString`). -/
def serializeParams (ps : List (String × String)) : String :=
  joinWith "&" (ps.map (fun p => p.1 ++ "=" ++ p.2))

/-- `url.search`. -/
def UrlParts.search (u : UrlParts) : String :=
  if u.params.isEmpty then "" else "?" ++ serializeParams u.params

/-- Everything `url.toString()` serialises after the host. -/
def UrlParts.tailStr (u : UrlParts) : String :=
  (match u.port with
   | none => ""
   | some p => ":" ++ natToStr p) ++
  u.pathname ++ u.search ++
  (match u.fragment with
   | none => ""
   | some f => "#" ++ f)

/-- `url.toString()`. -/
def UrlParts.toStr (u : UrlParts) : String :=
  u.scheme ++ "://" ++ u.host ++ u.tailStr

/-- The tracking parameters removed by `normalizeUrl` (source list). -/
def paramsToRemove : List String :=
  ["utm_source", "utm_medium", "utm_campaign", "utm_term", "utm_content",
   "fbclid", "gclid", "ref", "source", "campaign_id", "ad_id",
   "track", "tracking", "campaign", "medium"]

/-- The `paramsToRemove.forEach(p => urlObj.searchParams.delete(p))` loop. -/
def deleteTracking (ps : List (String × String)) : List (String × String) :=
  ps.filter (fun p => ¬ paramsToRemove.contains p.1)

/-- `normalizedUrl.replace(/\/$/, '')`: drop one trailing slash. -/
def stripTrailingSlash (s : String) : String :=
  if s.data.getLast? = some '/' then ⟨s.data.dropLast⟩ else s

/-- `normalizedUrl.replace(/^https?:\/\/www\./, 'https://')`: one leading
`www.` after the scheme is folded into an `https` scheme. -/
def replaceWwwScheme (s : String) : String :=
  if isPrefixB "http://www.".data s.data then ⟨"https://".data ++ s.data.drop 11⟩
  else if isPrefixB "https://www.".data s.data then ⟨"https://".data ++ s.data.drop 12⟩
  else s

/-- `normalizeUrl(url)` — duplicate-detection normalisation (source lines
1338–1362): parse, delete tracking parameters, re-serialise, strip one
trailing slash, fold `www.` into `https`, lowercase; on a parse failure
return the input lowercased and trimmed. -/
def normalizeUrl (url : String) : String :=
  match parseUrl url with
  | some u =>
    lowerStr (replaceWwwScheme (stripTrailingSlash
      (UrlParts.toStr { u with params := deleteTracking u.params })))
  | none => trimStr (lowerStr url)

/-!
## Data model

`BookmarkItem` snapshots produced by `getAllBookmarksFlat` and the per-item
`bookmarkMeta` records persisted in storage.  `path` is the list of ancestor
folder *titles* (plain strings) accumulated by the tree walk.
-/

structure Bm where
  id : String := ""
  title : String := ""
  url : String := ""
  parentId : String := ""
  dateAdded : Nat := 0
  path : List String := []
deriving DecidableEq

/-- A `bookmarkMeta` record.  Absent string fields are `""`, absent booleans
are `false`, matching every truthiness test and `|| ''` read in the source. -/
structure MetaRec where
  primary : String := ""
  description : String := ""
  manual : Bool := false
  needsReclassification : Bool := false
  organized : Bool := false
  organizedAt : Nat := 0
  clonedFrom : String := ""
  organizeFailed : Bool := false
  lastError : String := ""
  categories : List String := []
  tags : List String := []
deriving DecidableEq

/-- A `userCategories` entry. -/
structure Cat where
  id : String := ""
  name : String := ""
  emoji : String := ""
  parent : String := ""
  order : Nat := 0
deriving DecidableEq

abbrev MetaStore := List (String × MetaRec)
abbrev CatStore := List (String × Cat)

def SMART_PARENT : String := "🧠 Smart Bookmarks"

/-- The smart-structure test applied to one `path` element: the source
evaluates `p.title === SMART_PARENT`, but `p` is a plain string (the walk in
`getAllBookmarksFlat` pushes `node.title` values), so `p.title` is
`undefined` and the comparison is false for every element. -/
def pathElemMarksSmart (_p : String) : Bool := false

/-- `bm.path && bm.path.some(p => p.title === SMART_PARENT)`. -/
def isInSmartByPath (bm : Bm) : Bool := bm.path.any pathElemMarksSmart

/-!
## Duplicate Reconciler (`removeDuplicatesFromSmartBookmarks`)

The source groups bookmarks with JS `Map`s keyed by normalised URL (+ title).
A `Map` groups each key's members in list order and iterates keys in first-
insertion order, so the grouping is rendered as: the key list deduplicated
keeping first occurrences, each key mapped to the filter of the bookmark
list sharing it.  `Array.prototype.sort` is a stable sort (ES2019), rendered
as insertion sort on `dateAdded`, matching the comparator
`(a, b) => (a.dateAdded || 0) - (b.dateAdded || 0)`.
-/

/-- Deduplicate keeping first occurrences (fuel-based so it computes). -/
def dedupFirstAux : Nat → List String → List String
  | 0, _ => []
  | _, [] => []
  | fuel + 1, k :: rest => k :: dedupFirstAux fuel (rest.filter (fun x => ¬ x == k))

def dedupFirst (l : List String) : List String := dedupFirstAux l.length l

/-- Group a list by a string key, keys in first-occurrence order. -/
def groupsBy (f : α → String) (l : List α) : List (List α) :=
  (dedupFirst (l.map f)).map (fun k => l.filter (fun b => f b == k))

/-- Stable insertion into a date-sorted list (later elements go after
equal-dated earlier ones, as JS stable sort does). -/
def insertByDate (a : Bm) : List Bm → List Bm
  | [] => [a]
  | b :: rest => if b.dateAdded < a.dateAdded then b :: insertByDate a rest else a :: b :: rest

/-- `bookmarks.sort((a, b) => (a.dateAdded || 0) - (b.dateAdded || 0))`. -/
def sortByDate : List Bm → List Bm
  | [] => []
  | a :: rest => insertByDate a (sortByDate rest)

/-- Partition into Smart-Bookmarks items and regular items (source lines
1185–1192).  Because the path test is vacuous (`pathElemMarksSmart`), only
direct children of the smart parent land on the smart side. -/
def smartSplit (smartParentId : String) (allBookmarks : List Bm) : List Bm × List Bm :=
  allBookmarks.partition (fun bm => isInSmartByPath bm || bm.parentId == smartParentId)

/-- Key of the exact pass: `` `${normalizedUrl}|${(bm.title || '').trim()}` ``. -/
def exactKey (bm : Bm) : String := normalizeUrl bm.url ++ "|" ++ trimStr bm.title

/-- Key of the title grouping inside the URL-only pass:
`(bm.title || '').trim().toLowerCase()`. -/
def titleKey (bm : Bm) : String := lowerStr (trimStr bm.title)

/-- Exact pass (same URL and title): per group of size > 1, count
`length - 1` duplicates and mark all but the earliest for removal. -/
def exactPass (withUrl : List Bm) : Nat × List Bm :=
  (groupsBy exactKey withUrl).foldl
    (fun acc g =>
      if g.length > 1 then (acc.1 + (g.length - 1), acc.2 ++ (sortByDate g).tail)
      else acc)
    (0, [])

/-- `duplicatesToRemove.find(d => d.id === x.id)` guard before pushing. -/
def addIfNew (acc : List Bm) (x : Bm) : List Bm :=
  if acc.any (fun d => d.id == x.id) then acc else acc ++ [x]

/-- URL-only pass: groups sharing a normalised URL are split by normalised
title; within each title group of size > 1 all but the earliest are marked,
skipping bookmarks already in the removal list. -/
def urlOnlyPass (withUrl : List Bm) (start : Nat × List Bm) : Nat × List Bm :=
  (groupsBy (fun bm => normalizeUrl bm.url) withUrl).foldl
    (fun acc g =>
      if g.length > 1 then
        (groupsBy titleKey g).foldl
          (fun acc2 tg =>
            if tg.length > 1 then
              (acc2.1 + (tg.length - 1), (sortByDate tg).tail.foldl addIfNew acc2.2)
            else acc2)
          acc
      else acc)
    start

structure DedupeEnv where
  smartParentId : String := ""
  allBookmarks : List Bm := []
  /-- Whether `chrome.bookmarks.remove` succeeds for a given id. -/
  removeOk : String → Bool := fun _ => true
  bookmarkMeta : MetaStore := []

structure DedupeResult where
  success : Bool := true
  duplicatesFound : Nat := 0
  duplicatesRemoved : Nat := 0
  smartBookmarksTotal : Nat := 0
  originalBookmarksTotal : Nat := 0
deriving DecidableEq

def smartBookmarksOf (env : DedupeEnv) : List Bm :=
  (smartSplit env.smartParentId env.allBookmarks).1

def regularBookmarksOf (env : DedupeEnv) : List Bm :=
  (smartSplit env.smartParentId env.allBookmarks).2

/-- Smart bookmarks that enter the grouping (`if (!bm.url) return`). -/
def smartWithUrl (env : DedupeEnv) : List Bm :=
  (smartBookmarksOf env).filter (fun bm => bm.url != "")

def dupCounts (env : DedupeEnv) : Nat × List Bm :=
  urlOnlyPass (smartWithUrl env) (exactPass (smartWithUrl env))

def dupsFound (env : DedupeEnv) : Nat := (dupCounts env).1

def dupsToRemove (env : DedupeEnv) : List Bm := (dupCounts env).2

/-- The removal loop: a successful removal bumps the counter and deletes the
bookmark's metadata record; a failed removal is caught and skipped. -/
def removalFold (ok : String → Bool) (meta0 : MetaStore) (toRemove : List Bm) :
    Nat × MetaStore :=
  toRemove.foldl
    (fun acc d => if ok d.id then (acc.1 + 1, objDelete acc.2 d.id) else acc)
    (0, meta0)

/-- `removeDuplicatesFromSmartBookmarks()` (source lines 1174–1335): result
object plus the metadata store after the pass. -/
def removeDuplicatesFromSmartBookmarks (env : DedupeEnv) : DedupeResult × MetaStore :=
  let fr := removalFold env.removeOk env.bookmarkMeta (dupsToRemove env)
  ({ success := true,
     duplicatesFound := dupsFound env,
     duplicatesRemoved := fr.1,
     smartBookmarksTotal := (smartBookmarksOf env).length,
     originalBookmarksTotal := (regularBookmarksOf env).length }, fr.2)

/-- The smart-side bookmarks still present after the pass (marked bookmarks
whose removal succeeded are gone). -/
def remainingSmart (env : DedupeEnv) : List Bm :=
  (smartBookmarksOf env).filter
    (fun bm => ¬ ((dupsToRemove env).any (fun d => d.id == bm.id) ∧ env.removeOk bm.id))

/-!
## Classification tables (ai_service)

`PATH_HINTS` regexes are alternations of literal substrings (with `/i` on an
already-lowercased path), so each is rendered as a list of literals tested
with `includes`.
-/

def DOMAIN_CATEGORY_MAP : List (String × String) :=
  [("cloudflare.com", "devops"), ("dash.cloudflare.com", "devops"),
   ("aws.amazon.com", "cloud"), ("console.aws.amazon.com", "cloud"),
   ("amazonaws.com", "cloud"), ("oraclecloud.com", "cloud"),
   ("octopus.do", "uxui"), ("figma.com", "uxui"), ("ahrefs.com", "seo"),
   ("gtmetrix.com", "qa"), ("pagespeed.web.dev", "qa"),
   ("campaignmonitor.com", "docs"), ("docs.google.com", "docs"),
   ("google.com", "docs"), ("youtube.com", "media"), ("ssyoutube.com", "media"),
   ("codepen.io", "frontend"), ("cssgradient.io", "frontend"),
   ("vercel.com", "frontend"), ("github.com", "programming"),
   ("gitlab.com", "programming"), ("stackoverflow.com", "programming"),
   ("mailtrap.io", "devops"), ("grafana.com", "devops"),
   ("screamingfrog.co.uk", "seo"), ("totalworkplace.sharepoint.com", "docs"),
   ("office.com", "docs"), ("sharepoint.com", "docs"),
   ("onedrive.live.com", "docs"), ("git-codecommit.amazonaws.com", "cloud"),
   ("codecommit.amazonaws.com", "cloud")]

def GENERAL_CATEGORY_MAP : List (String × String) :=
  [("devops", "developer/devops"), ("cloud", "developer/cloud"),
   ("frontend", "developer/frontend"), ("backend", "developer/backend"),
   ("cms", "workspaces/cms"), ("programming", "developer/programming"),
   ("online-tools", "tools/free-tools"), ("uxui", "tools/design-tools"),
   ("seo", "tools/seo-tools"), ("qa", "developer/qa"), ("media", "media"),
   ("docs", "docs"), ("ecommerce", "shopping"), ("education", "learning"),
   ("other", "other"), ("workspaces/login-pages", "workspaces/login-pages")]

/-- `mapToGeneral(cat)`: `GENERAL_CATEGORY_MAP[cat] || cat`. -/
def mapToGeneral (cat : String) : String := (objGet GENERAL_CATEGORY_MAP cat).getD cat

def PATH_HINTS : List (List String × String) :=
  [(["/cp/dashboard", "/wp-admin", "cpsess", ":2083", "/admin"], "cms"),
   (["/login", "signin", "sign-in", "auth"], "workspaces/login-pages"),
   (["/design", "/proto", "/node-id", "/canvas", "/drawio"], "uxui"),
   (["/seo", "/sitemap", "/lighthouse", "/analysis"], "seo"),
   (["/speed", "/load", "/perf", "/gtmetrix"], "qa"),
   (["/convert", "/resize", "/encode", "/decode"], "online-tools"),
   (["/media", "/video", "/download", "/mp4"], "media"),
   (["/docs", "/document", "/sheet", "/slides"], "docs"),
   (["/faq", "/guide", "/tutorial", "/help", "/knowledge"], "docs"),
   (["/graphql", "/api", "/rest"], "programming"),
   (["/shop", "/store", "/cart", "/product", "/products", "/checkout",
     "/ecommerce"], "ecommerce"),
   (["/course", "/courses", "/college", "/university", "/school", "/training",
     "/learn", "/education"], "education")]

def KEYWORDS : List (String × List String) :=
  [("devops", ["cloudflare", "grafana", "mailtrap", "cicd", "pipeline",
     "monitoring", "kubernetes", "helm", "prometheus", "ansible", "nginx",
     "ingress", "dns", "waf", "ssl", "tls", "cert"]),
   ("cloud", ["aws", "s3", "ec2", "rds", "route 53", "oci", "oracle cloud",
     "gcp", "azure", "iam", "vpc", "compute"]),
   ("frontend", ["react", "next", "vue", "angular", "css", "tailwind", "sass",
     "vite", "webpack", "storybook", "component", "ui", "codepen", "gradient",
     "cssgradient", "vercel"]),
   ("uxui", ["figma", "wireframe", "prototype", "ux", "ui", "design system",
     "octopus", "draw.io", "diagrams", "octopus.do", "node-id"]),
   ("seo", ["ahrefs", "semrush", "sitemap", "backlink", "schema", "gsc",
     "gigalist", "seo"]),
   ("qa", ["gtmetrix", "lighthouse", "browserstack", "lambda test", "pentest",
     "performance", "testing", "qa", "qa tools"]),
   ("docs", ["docs", "document", "slides", "sheet", "confluence", "wiki",
     "guide", "checklist", "documentation"]),
   ("media", ["video", "mp4", "youtube", "downloader", "suno", "pixlr",
     "shots", "mockup", "media", "image", "png", "jpg"]),
   ("cms", ["cpanel", "wp-admin", "statamic", "drupal", "content", "cms",
     "collection", "entries", "admin", "cp/dashboard"]),
   ("programming", ["github", "gitlab", "code", "repo", "er diagram",
     "drawio", "query", "api", "swagger", "graphql", "postman", "json",
     "csv"]),
   ("online-tools", ["converter", "encode", "decode", "resize", "favicon",
     "uuid", "formatter", "dns", "whatsmydns", "tool", "online"]),
   ("ecommerce", ["shop", "store", "cart", "checkout", "ecommerce",
     "shopping", "product", "seller", "buyer", "order", "price", "customer"]),
   ("education", ["education", "college", "university", "school", "course",
     "courses", "learning", "training", "academy", "class", "students"])]

/-!
## Page fetching and HTML text extraction

`fetchPageContent` wraps the browser `fetch`; its outcome (body text, or a
thrown timeout/network error) is an oracle.  The regex-based extractors are
rendered as scanners with the same match semantics on well-formed HTML; the
greedy-backtracking corner cases of `[^>]+` do not arise in the claims.
-/

inductive FetchOutcome
  | ok (body : String) (contentType : String)
  | err
deriving DecidableEq

/-- `fetchPageContent(url, timeoutMs = 3500, bytes = 150000)`: the response
body truncated to `bytes`; any fetch failure degrades to `""`.  The content
type of a successful response is not inspected. -/
def fetchPageContent (o : FetchOutcome) (bytes : Nat := 150000) : String :=
  match o with
  | .ok body _ => takeStr body bytes
  | .err => ""

/-- `extractTitle(html)`: `/<title[^>]*>([^<]*)/i`, captured text trimmed. -/
def extractTitle (html : String) : String :=
  match findCISuffix "<title".data html.data with
  | none => ""
  | some rest =>
    match rest.dropWhile (fun c => c != '>') with
    | '>' :: r => trimStr ⟨r.takeWhile (fun c => c != '<')⟩
    | _ => ""

def isQuote (c : Char) : Bool := c == '"' || c == '\''

/-- Find a case-insensitive occurrence of `pat` without crossing `>`,
allowing a match at the current position. -/
def findCIInTag (pat : List Char) : List Char → Option (List Char)
  | [] => none
  | hay@(c :: t) =>
    if isPrefixCI pat hay then some (hay.drop pat.length)
    else if c == '>' then none
    else findCIInTag pat t

/-- Find `pat` preceded by at least one non-`>` character (`[^>]+pat`). -/
def findCIGapAfter (pat : List Char) : List Char → Option (List Char)
  | [] => none
  | c :: t => if c == '>' then none else findCIInTag pat t

/-- After `content=`: a quote, a nonempty run of non-quote characters
(captured), and a closing quote; returns the capture and the rest. -/
def tryContentCap (r : List Char) : Option (String × List Char) :=
  match r with
  | q :: r2 =>
    if isQuote q then
      let cap := r2.takeWhile (fun c => ¬ isQuote c)
      if cap.isEmpty then none
      else
        match r2.drop cap.length with
        | q2 :: rest => if isQuote q2 then some (⟨cap⟩, rest) else none
        | [] => none
    else none
  | [] => none

/-- After `name=` (resp. `property=`): quoted `value`, then
`[^>]+content=["']([^"']+)["']`. -/
def tryValueContent (value : List Char) (r1 : List Char) : Option String :=
  match r1 with
  | q :: r2 =>
    if isQuote q ∧ isPrefixCI value r2 then
      match r2.drop value.length with
      | q2 :: r3 =>
        if isQuote q2 then
          match findCIGapAfter "content=".data r3 with
          | some r4 => (tryContentCap r4).map (·.1)
          | none => none
        else none
      | [] => none
    else none
  | [] => none

/-- Scan one `<meta` tag for `attr` = quoted `value` followed by a content
capture, trying each occurrence of `attr` inside the tag. -/
def scanTagForMeta (attr value : List Char) : Nat → List Char → Option String
  | 0, _ => none
  | fuel + 1, rest =>
    match findCIGapAfter attr rest with
    | none => none
    | some r1 =>
      match tryValueContent value r1 with
      | some s => some s
      | none => scanTagForMeta attr value fuel r1

/-- Scan all `<meta` occurrences for the first tag yielding a capture. -/
def scanMetasFor (attr value : List Char) : Nat → List Char → Option String
  | 0, _ => none
  | fuel + 1, cs =>
    match findCISuffix "<meta".data cs with
    | none => none
    | some rest =>
      match scanTagForMeta attr value (rest.length + 1) rest with
      | some s => some s
      | none => scanMetasFor attr value fuel rest

/-- `extractMetaDesc(html)`: the `description` meta, else `og:description`,
else `""`; captures are trimmed. -/
def extractMetaDesc (html : String) : String :=
  match scanMetasFor "name=".data "description".data (html.data.length + 1) html.data with
  | some s => trimStr s
  | none =>
    match scanMetasFor "property=".data "og:description".data (html.data.length + 1) html.data with
    | some s => trimStr s
    | none => ""

/-- One step of the global `/<meta[^>]+content=["']([^"']+)["']/gi` scan. -/
def scanTagForContent : Nat → List Char → Option (String × List Char)
  | 0, _ => none
  | fuel + 1, rest =>
    match findCIGapAfter "content=".data rest with
    | none => none
    | some r1 =>
      match tryContentCap r1 with
      | some res => some res
      | none => scanTagForContent fuel r1

/-- All meta `content` captures, in document order. -/
def collectMetaContents : Nat → List Char → List String
  | 0, _ => []
  | fuel + 1, cs =>
    match findCISuffix "<meta".data cs with
    | none => []
    | some rest =>
      match scanTagForContent (rest.length + 1) rest with
      | some (cap, after) => cap :: collectMetaContents fuel after
      | none => collectMetaContents fuel rest

/-- Find the next `<h1`/`<h2`/`<h3` (case-insensitive), returning the suffix
after the three matched characters. -/
def findHeadSuffix : List Char → Option (List Char)
  | [] => none
  | hay@(_ :: t) =>
    if isPrefixCI "<h1".data hay || isPrefixCI "<h2".data hay ||
        isPrefixCI "<h3".data hay then
      some (hay.drop 3)
    else findHeadSuffix t

/-- All captures of `/<(h1|h2|h3)[^>]*>([^<]+)/gi`, in document order. -/
def collectHeadings : Nat → List Char → List String
  | 0, _ => []
  | fuel + 1, cs =>
    match findHeadSuffix cs with
    | none => []
    | some rest =>
      match rest.dropWhile (fun c => c != '>') with
      | '>' :: r =>
        let cap := r.takeWhile (fun c => c != '<')
        if cap.isEmpty then collectHeadings fuel rest
        else (⟨cap⟩ : String) :: collectHeadings fuel (r.drop cap.length)
      | _ => collectHeadings fuel rest

/-- `textBagFromHtml(html)`: title, meta contents and h1–h3 headings joined
with spaces and lowercased. -/
def textBagFromHtml (html : String) : String :=
  let title := extractTitle html
  let metas := collectMetaContents (html.data.length + 1) html.data
  let headings := collectHeadings (html.data.length + 1) html.data
  lowerStr (joinWith " " [title, joinWith " " metas, joinWith " " headings])

/-- `bag.split(/\.\s+/)`: split on a period followed by a whitespace run. -/
def splitSentencesAux : Nat → List Char → List Char → List (List Char)
  | 0, acc, _ => [acc.reverse]
  | fuel + 1, acc, cs =>
    match cs with
    | [] => [acc.reverse]
    | '.' :: rest =>
      match rest with
      | c :: _ =>
        if wsChar c then
          acc.reverse :: splitSentencesAux fuel [] (rest.dropWhile wsChar)
        else splitSentencesAux fuel ('.' :: acc) rest
      | [] => splitSentencesAux fuel ('.' :: acc) rest
    | c :: rest => splitSentencesAux fuel (c :: acc) rest

def splitSentences (s : String) : List String :=
  (splitSentencesAux (s.data.length + 1) [] s.data).map (fun l => ⟨l⟩)

/-- `split(/\.\s+/).slice(0, 2).join('. ').trim().slice(0, 240)`. -/
def summaryOf (bagText : String) : String :=
  takeStr (trimStr (joinWith ". " ((splitSentences bagText).take 2))) 240

/-!
## The classifier (`AIService.categorizeBookmarkDetailed`)

Storage reads and the two effectful calls (page fetch and the OpenAI chat
request) enter as parameters.  `OpenAICall.ok c d` carries the values of
`parsed.category || ''` and `parsed.description || ''` after the response
JSON has been parsed; `OpenAICall.fail` is a thrown request (the `catch`
falls through to the local heuristics).
-/

inductive OpenAICall
  | fail
  | ok (category description : String)
deriving DecidableEq

structure ClassifyEnv where
  fetchOut : FetchOutcome := .err
  openaiCall : OpenAICall := .fail

/-- The storage snapshot read at the top of the classifier. -/
structure Store where
  userCategories : CatStore := []
  bookmarkMeta : MetaStore := []
  openaiKey : String := ""

structure BmInfo where
  id : String := ""
  title : String := ""
  url : String := ""

structure CatResult where
  category : String
  description : String
  source : String
deriving DecidableEq

/-- `host` and `pathname` preparation: hostname lowercased with one leading
`www.` stripped, `pathname + search` lowercased; a URL parse failure yields
`("", "")`. -/
def hostAndPath (url : String) : String × String :=
  match parseUrl url with
  | some u =>
    (let h := lowerStr u.host
     if isPrefixB "www.".data h.data then ⟨h.data.drop 4⟩ else h,
     lowerStr (u.pathname ++ u.search))
  | none => ("", "")

/-- `scoreKeywords(bag)`: for each category, the number of its keywords that
occur (as substrings) in the bag. -/
def scoreKeywords (bag : String) : List (String × Nat) :=
  (objEntries KEYWORDS).map (fun p => (p.1, p.2.countP (fun w => includesStr bag w)))

/-- The best-score selection loop (`bestCat`/`bestScore`, strict `>`). -/
def keywordPick (scores : List (String × Nat)) : String × Nat :=
  scores.foldl (fun best p => if p.2 > best.2 then (p.1, p.2) else best) ("", 0)

/-- Keyword-scoring fallback and the terminal default branch. -/
def localOrDefault (bagText metaDesc summary : String) : CatResult :=
  let pick := keywordPick (scoreKeywords bagText)
  if pick.2 > 0 then
    { category := mapToGeneral pick.1, description := jsOr metaDesc summary,
      source := "local" }
  else
    { category := mapToGeneral "other", description := jsOr metaDesc summary,
      source := "default" }

/-- The classifier after the manual-override check: domain map, path hints,
optional OpenAI call, keyword heuristics, default. -/
def classifyRest (env : ClassifyEnv) (store : Store) (bm : BmInfo) : CatResult :=
  let hp := hostAndPath bm.url
  let host := hp.1
  let pathname := hp.2
  let html := fetchPageContent env.fetchOut
  let metaDesc := extractMetaDesc html
  let bagText := textBagFromHtml html
  let summary := summaryOf bagText
  match objGet DOMAIN_CATEGORY_MAP host with
  | some dc =>
    { category := mapToGeneral dc, description := jsOr metaDesc summary,
      source := "domain" }
  | none =>
    match PATH_HINTS.find? (fun hint => hint.1.any (fun sub => includesStr pathname sub)) with
    | some hint =>
      { category := mapToGeneral hint.2, description := jsOr metaDesc summary,
        source := "path" }
    | none =>
      if store.openaiKey ≠ "" then
        match env.openaiCall with
        | .ok c d =>
          let chosen0 := trimStr c
          let description := trimStr (jsOr d metaDesc)
          let chosen := if chosen0 = "" then "other" else chosen0
          { category := mapToGeneral chosen, description := description,
            source := "openai" }
        | .fail => localOrDefault bagText metaDesc summary
      else localOrDefault bagText metaDesc summary

/-- `AIService.categorizeBookmarkDetailed({id, title, url})` (source lines
2735–2853). -/
def categorizeBookmarkDetailed (env : ClassifyEnv) (store : Store) (bm : BmInfo) :
    CatResult :=
  match (if bm.id = "" then none else objGet store.bookmarkMeta bm.id) with
  | some m =>
    if m.manual ∧ m.primary ≠ "" then
      { category := m.primary, description := m.description, source := "manual" }
    else classifyRest env store bm
  | none => classifyRest env store bm

/-!
## Organization Job Engine (`startOrganize`, main variant, lines 737–981)

The run is modelled as a function from the in-memory `orgState` and an
environment of oracles (bookmark snapshot, storage snapshot, per-item fetch
and provider outcomes, clone-creation outcomes, folder ids, and the external
cancellation point) to the result object, the final `orgState`, and the
trace of externally visible writes.  Cooperative cancellation — an external
mutation of `orgState.status` away from `running` — is observed by the
`status !== 'running'` check before each item and modelled by `cancelAt`:
from item `k` on, the check fails.  Per-item engine faults (a rejected
storage or bookmarks call inside the item `try` block) are modelled as
occurring at the start of the item.
-/

structure Progress where
  status : String
  done : Nat := 0
  total : Nat := 0
  message : String := ""
  error : String := ""
deriving DecidableEq

structure OrgState where
  status : String := "idle"
  total : Nat := 0
  done : Nat := 0
  startedAt : Nat := 0
  lastTitle : String := ""
  provider : String := "local"
  completedAt : Nat := 0
  error : String := ""
deriving DecidableEq

structure Stats where
  totalBookmarks : Nat := 0
  categoriesCreated : Nat := 0
  categories : List (String × Nat) := []
  favorites : Nat := 0
  recent : Nat := 0
deriving DecidableEq

/-- Externally visible writes of a job run. -/
inductive Ev
  | saveOrgState (st : OrgState)
  | broadcast (p : Progress)
  | saveStore
  | saveStats
  | ensureFolder (slug : String)
  | moveBm (id parent : String)
  | createBm (parent title url : String)
  | dedupeRun
deriving DecidableEq

structure CloneOut where
  ok : Bool := true
  newId : String := ""
deriving DecidableEq

structure OrgEnv where
  allBookmarks : List Bm := []
  smartParentId : String := ""
  /-- `organize_strategy` from storage (`""` = unset, defaulting to clone). -/
  storedStrategy : String := ""
  store : Store := {}
  aiMode : String := "local"
  stats0 : Stats := {}
  cenv : Nat → ClassifyEnv := fun _ => {}
  fault : Nat → Option String := fun _ => none
  clone : Nat → CloneOut := fun _ => {}
  folderId : String → String := fun _ => ""
  cancelAt : Option Nat := none
  now : Nat := 0

structure OrgResult where
  success : Bool
  error : String := ""
  message : String := ""
deriving DecidableEq

/-- ASCII upper-casing of one character. -/
def upChar (c : Char) : Char :=
  if 'a' ≤ c ∧ c ≤ 'z' then Char.ofNat (c.toNat - 32) else c

/-- `w.charAt(0).toUpperCase() + w.slice(1)`. -/
def capitalize (w : List Char) : String :=
  match w with
  | [] => ""
  | c :: r => ⟨upChar c :: r⟩

/-- `s.split(pred-matching characters)`. -/
def splitOnPred (p : Char → Bool) : List Char → List (List Char)
  | [] => [[]]
  | c :: rest =>
    match splitOnPred p rest with
    | [] => [[]]
    | h :: t => if p c then [] :: h :: t else (c :: h) :: t

/-- `slug.split(/[-_]/).map(capitalize).join(' ')`. -/
def friendlyName (slug : String) : String :=
  joinWith " " ((splitOnPred (fun c => c == '-' || c == '_') slug.data).map capitalize)

/-- The loop-local mutable state (`meta`, `userCategories`,
`organizationStats`, and the `done`/`lastTitle` fields of `orgState`). -/
structure LoopSt where
  meta : MetaStore
  userCategories : CatStore
  stats : Stats
  done : Nat := 0
  lastTitle : String := ""

/-- Has the externally mutated status been observed before item `i`? -/
def cancelledAt (env : OrgEnv) (i : Nat) : Bool :=
  match env.cancelAt with
  | some k => k ≤ i
  | none => false

/-- `organizationStats` update for one organised bookmark. -/
def bumpStats (st : Stats) (slug : String) (bm : Bm) (weekAgo : Nat) : Stats :=
  let st1 := { st with
    categories := objSet st.categories slug ((objGet st.categories slug).getD 0 + 1) }
  if bm.dateAdded != 0 && weekAgo < bm.dateAdded then
    { st1 with recent := st1.recent + 1 }
  else st1

structure StepOut where
  st : LoopSt
  evs : List Ev
  /-- Whether control reaches the per-item progress update (a failed clone
  creation hits `continue` and skips it). -/
  progress : Bool

/-- One iteration of the per-item loop (the `try`/`catch` body, source lines
809–904). -/
def orgStep (env : OrgEnv) (strategy : String) (i : Nat) (bm : Bm) (s : LoopSt) :
    StepOut :=
  match env.fault i with
  | some msg =>
    let old := (objGet s.meta bm.id).getD {}
    let failedRec := { old with organizeFailed := true, lastError := msg }
    { st := { s with meta := objSet s.meta bm.id failedRec },
      evs := [], progress := true }
  | none =>
    let skip : Bool :=
      match objGet s.meta bm.id with
      | some m => m.primary != "" && ! m.needsReclassification
      | none => false
    let sd : String × String :=
      if skip then
        match objGet s.meta bm.id with
        | some m => (m.primary, m.description)
        | none => ("", "")
      else
        let r := categorizeBookmarkDetailed (env.cenv i) env.store
          { id := bm.id, title := bm.title, url := bm.url }
        (jsOr r.category "other", r.description)
    let slug1 := if sd.1 = "" ∨ trimStr sd.1 = "" then "other" else sd.1
    let slug := trimStr (lowerStr slug1)
    let description := sd.2
    let cats1 :=
      if hasKey s.userCategories slug then s.userCategories
      else objSet s.userCategories slug
        { id := slug, name := friendlyName slug, emoji := "📁", parent := "",
          order := s.userCategories.length + 1 }
    let old := (objGet s.meta bm.id).getD {}
    let newRec :=
      { old with primary := slug, description := description,
                 manual := old.manual, organized := true,
                 organizedAt := env.now, needsReclassification := false }
    let meta1 := objSet s.meta bm.id newRec
    let targetParent := env.folderId slug
    let weekAgo := env.now - 7 * 24 * 60 * 60 * 1000
    if strategy = "move" then
      let stM := { s with meta := meta1, userCategories := cats1,
                          stats := bumpStats s.stats slug bm weekAgo }
      { st := stM,
        evs := [Ev.ensureFolder slug, Ev.moveBm bm.id targetParent],
        progress := true }
    else
      let co := env.clone i
      if co.ok then
        let cloneRec : MetaRec :=
          { primary := slug, description := description, manual := false,
            organized := true, organizedAt := env.now, clonedFrom := bm.id }
        let meta2 := objSet meta1 co.newId cloneRec
        let stC := { s with meta := meta2, userCategories := cats1,
                            stats := bumpStats s.stats slug bm weekAgo }
        { st := stC,
          evs := [Ev.ensureFolder slug, Ev.createBm targetParent bm.title bm.url],
          progress := true }
      else
        { st := { s with meta := meta1, userCategories := cats1 },
          evs := [Ev.ensureFolder slug], progress := false }

/-- The sequential processing loop with its cancellation check before each
item and the per-item progress persist/broadcast. -/
def orgLoop (env : OrgEnv) (strategy : String) (base : OrgState) :
    List (Nat × Bm) → LoopSt → LoopSt × List Ev
  | [], s => (s, [])
  | (i, bm) :: rest, s =>
    if cancelledAt env i then (s, [])
    else
      let step := orgStep env strategy i bm s
      if step.progress then
        let s2 := { step.st with done := i + 1, lastTitle := bm.title }
        let evProg :=
          [Ev.saveOrgState { base with done := i + 1, lastTitle := bm.title },
           Ev.broadcast { status := "running", done := i + 1, total := base.total }]
        let restRes := orgLoop env strategy base rest s2
        (restRes.1, step.evs ++ evProg ++ restRes.2)
      else
        let restRes := orgLoop env strategy base rest step.st
        (restRes.1, step.evs ++ restRes.2)

/-- The eligibility filter (skip direct children of the smart parent; the
path-based subtree check is vacuous, see `pathElemMarksSmart`). -/
def toProcessOf (env : OrgEnv) : List Bm :=
  env.allBookmarks.filter
    (fun b => ! (b.parentId == env.smartParentId) && ! isInSmartByPath b)

/-- `startOrganize()` (source lines 737–981): result, final `orgState`, and
the trace of writes.  The engine-level `catch` (a failed settings load or
state save) is outside the modelled oracles, so runs here end in `done`. -/
def startOrganize (st0 : OrgState) (env : OrgEnv) : OrgResult × OrgState × List Ev :=
  if st0.status = "running" then
    ({ success := false, error := "Already organizing" }, st0, [])
  else
    let list := env.allBookmarks
    let toProcess := toProcessOf env
    if toProcess.length = 0 then
      ({ success := true, message := "No bookmarks need organizing" }, st0, [])
    else
      let strategy := jsOr env.storedStrategy "clone"
      let st1 : OrgState :=
        { status := "running", total := toProcess.length, done := 0,
          startedAt := env.now, lastTitle := "",
          provider := jsOr env.aiMode "local" }
      let statsR : Stats :=
        { env.stats0 with totalBookmarks := list.length, categories := [], recent := 0 }
      let s0 : LoopSt :=
        { meta := env.store.bookmarkMeta,
          userCategories := env.store.userCategories,
          stats := statsR }
      let lp := orgLoop env strategy st1 toProcess.enum s0
      let evInit :=
        [Ev.saveOrgState st1,
         Ev.broadcast { status := "running", done := 0, total := toProcess.length }]
      let dedupeProg : Progress :=
        { status := "running", done := st1.total, total := st1.total,
          message := "Removing duplicates..." }
      let evDedupe :=
        if strategy = "clone" then [Ev.broadcast dedupeProg, Ev.dedupeRun]
        else []
      let stDone : OrgState :=
        { st1 with done := lp.1.done, lastTitle := lp.1.lastTitle,
                   status := "done", completedAt := env.now }
      let evEnd :=
        [Ev.saveOrgState stDone,
         Ev.broadcast { status := "done", done := st1.total, total := st1.total },
         Ev.saveStats]
      ({ success := true }, stDone,
        evInit ++ lp.2 ++ [Ev.saveStore] ++ evDedupe ++ evEnd)

/-!
## Taxonomy reconciliation (`updateUserCategories` handler, lines 1531–1608)

Bookmark-tree reads (children of the smart parent, children of each removed
category folder) and the folder id produced by `ensureCategoryFolder` for
the fallback slug are oracles; the handler's effect is the updated
`bookmarkMeta`, the saved `userCategories` (the new set), and the
move/removeTree writes.
-/

structure Folder where
  id : String := ""
  title : String := ""
  url : String := ""
deriving DecidableEq

structure TaxEnv where
  newCats : CatStore := []
  oldCats : CatStore := []
  meta0 : MetaStore := []
  /-- Children of the smart parent folder. -/
  smartChildren : List Folder := []
  /-- Children of a given folder id. -/
  folderChildren : String → List Folder := fun _ => []
  /-- `ensureCategoryFolder(slug)` for the fallback slug. -/
  folderIdOf : String → String := fun _ => ""

inductive TaxEv
  | moveBm (id parent : String)
  | removeTree (folderId : String)
deriving DecidableEq

/-- `` `${cat.emoji ? cat.emoji + ' ' : ''}${cat.name}` ``. -/
def folderNameOf (c : Cat) : String :=
  (if c.emoji ≠ "" then c.emoji ++ " " else "") ++ c.name

/-- Slugs present in the old set but absent from the new one. -/
def removedSlugs (env : TaxEnv) : List String :=
  (objKeys env.oldCats).filter (fun slug => ¬ hasKey env.newCats slug)

/-- `newCats.other ? 'other' : Object.keys(newCats)[0] || null`
(`""` models `null`). -/
def fallbackSlugOf (newCats : CatStore) : String :=
  if hasKey newCats "other" then "other" else (objKeys newCats).headD ""

/-- Locate the removed category's folder among the smart parent's children
(first child that is a folder with the composed name). -/
def locateFolder (env : TaxEnv) (slug : String) : Option String :=
  match objGet env.oldCats slug with
  | none => none
  | some oc =>
    (env.smartChildren.find? (fun ch => ch.url == "" && ch.title == folderNameOf oc)).map (·.id)

/-- Processing of one child of a removed folder: strip the slug from the
metadata record (when one exists), reassign `primary` through
`categories[0] || fallbackSlug`, mark manual, and move the bookmark to the
fallback folder when a fallback exists. -/
def taxProcessChild (slug fallback : String) (targetF : String → String)
    (acc : MetaStore × List TaxEv) (child : Folder) : MetaStore × List TaxEv :=
  if child.url != "" then
    let meta1 :=
      match objGet acc.1 child.id with
      | some mRec =>
        let cats := mRec.categories.filter (fun c => ¬ c == slug)
        let newPrimary :=
          if mRec.primary = slug then jsOr (cats.headD "") fallback else mRec.primary
        objSet acc.1 child.id
          { mRec with categories := cats, primary := newPrimary, manual := true }
      | none => acc.1
    let evs := acc.2 ++ (if fallback ≠ "" then [TaxEv.moveBm child.id (targetF fallback)] else [])
    (meta1, evs)
  else acc

/-- Processing of one removed slug: skip if its folder is not found, else
update every child and remove the emptied folder. -/
def taxProcessSlug (env : TaxEnv) (fallback : String)
    (acc : MetaStore × List TaxEv) (slug : String) : MetaStore × List TaxEv :=
  match locateFolder env slug with
  | none => acc
  | some folderId =>
    let r := (env.folderChildren folderId).foldl (taxProcessChild slug fallback env.folderIdOf) acc
    (r.1, r.2 ++ [TaxEv.removeTree folderId])

/-- The `updateUserCategories` handler: updated `bookmarkMeta`, the saved
`userCategories` (the new definitions), and the bookmark-tree writes.
(`ensureUserCategoryFolders` then proactively creates folders for the
surviving set; it does not touch metadata.) -/
def updateUserCategories (env : TaxEnv) : MetaStore × CatStore × List TaxEv :=
  let removed := removedSlugs env
  let fallback := fallbackSlugOf env.newCats
  let r :=
    if removed.isEmpty then (env.meta0, [])
    else removed.foldl (taxProcessSlug env fallback) (env.meta0, [])
  (r.1, env.newCats, r.2)

/-- Named pieces of an accepted run (the internal `let`s of `startOrganize`),
used to state trace properties. -/
def st1Of (env : OrgEnv) : OrgState :=
  { status := "running", total := (toProcessOf env).length, done := 0,
    startedAt := env.now, lastTitle := "", provider := jsOr env.aiMode "local" }

def s0Of (env : OrgEnv) : LoopSt :=
  { meta := env.store.bookmarkMeta,
    userCategories := env.store.userCategories,
    stats := { env.stats0 with totalBookmarks := env.allBookmarks.length,
                               categories := [], recent := 0 } }

def loopOf (env : OrgEnv) : LoopSt × List Ev :=
  orgLoop env (jsOr env.storedStrategy "clone") (st1Of env) (toProcessOf env).enum (s0Of env)

def stDoneOf (env : OrgEnv) : OrgState :=
  { st1Of env with done := (loopOf env).1.done, lastTitle := (loopOf env).1.lastTitle,
                   status := "done", completedAt := env.now }

/-- The full write trace of an accepted run. -/
def trRunOf (env : OrgEnv) : List Ev :=
  [Ev.saveOrgState (st1Of env),
   Ev.broadcast { status := "running", done := 0, total := (toProcessOf env).length }] ++
  (loopOf env).2 ++ [Ev.saveStore] ++
  (if jsOr env.storedStrategy "clone" = "clone" then
    [Ev.broadcast { status := "running", done := (st1Of env).total,
                    total := (st1Of env).total, message := "Removing duplicates..." },
     Ev.dedupeRun]
   else []) ++
  [Ev.saveOrgState (stDoneOf env),
   Ev.broadcast { status := "done", done := (st1Of env).total, total := (st1Of env).total },
   Ev.saveStats]

/-- The progress messages of a trace, in order. -/
def broadcastsOf (tr : List Ev) : List Progress :=
  tr.filterMap (fun e =>
    match e with
    | .broadcast p => some p
    | _ => none)

/-- The `done` values of a trace's progress broadcasts, in order. -/
def broadcastDones (tr : List Ev) : List Nat :=
  tr.filterMap (fun e =>
    match e with
    | .broadcast p => some p.done
    | _ => none)

/-- A 2-bookmark environment whose first clone creation fails. -/
def c4Env : OrgEnv :=
  { allBookmarks := [{ id := "b1", title := "T1" }, { id := "b2", title := "T2" }],
    smartParentId := "1",
    clone := fun i => if i == 0 then { ok := false } else { ok := true, newId := "n2" } }

/-- A 2-bookmark environment where every clone creation succeeds. -/
def c4WitEnv : OrgEnv :=
  { allBookmarks := [{ id := "b1", title := "T1" }, { id := "b2", title := "T2" }],
    smartParentId := "1",
    clone := fun _ => { ok := true, newId := "n9" } }

/-- A 1-bookmark environment where cancellation is visible from item 0 on. -/
def c3Env : OrgEnv :=
  { allBookmarks := [{ id := "b1", title := "T" }],
    smartParentId := "1", cancelAt := some 0,
    clone := fun _ => { ok := true, newId := "n1" } }

/-!
## Generic lemmas about the embedding's primitives
-/

/-- A fold preserves an invariant of its accumulator. -/
theorem foldl_inv {P : β → Prop} {f : β → α → β}
    (hstep : ∀ b a, P b → P (f b a)) :
    ∀ (l : List α) (b : β), P b → P (l.foldl f b)
  | [], _, hb => hb
  | a :: t, b, hb => foldl_inv hstep t (f b a) (hstep b a hb)

theorem takeWhile_append_all {q : α → Bool} {l₁ l₂ : List α}
    (h : ∀ c ∈ l₁, q c = true) :
    (l₁ ++ l₂).takeWhile q = l₁ ++ l₂.takeWhile q := by
  induction l₁ with
  | nil => simp
  | cons a t ih =>
    have ha := h a (by simp)
    simp [List.takeWhile, ha, ih (fun c hc => h c (by simp [hc]))]

theorem dropWhile_append_all {q : α → Bool} {l₁ l₂ : List α}
    (h : ∀ c ∈ l₁, q c = true) :
    (l₁ ++ l₂).dropWhile q = l₂.dropWhile q := by
  induction l₁ with
  | nil => simp
  | cons a t ih =>
    have ha := h a (by simp)
    simp [List.dropWhile, ha, ih (fun c hc => h c (by simp [hc]))]

theorem isPrefixB_self_append (pat r : List Char) :
    isPrefixB pat (pat ++ r) = true := by
  induction pat with
  | nil => simp [isPrefixB]
  | cons a t ih => simp [isPrefixB, ih]

theorem objGet_objSet_self (l : List (String × α)) (k : String) (v : α) :
    objGet (objSet l k v) k = some v := by
  by_cases h : hasKey l k
  · have hpred :
        (fun p : String × α => p.1 == k) ∘ (fun p => if p.1 == k then (k, v) else p) =
          (fun p : String × α => p.1 == k) := by
      funext p
      by_cases hp : p.1 = k <;> simp [hp]
    simp only [objSet, h, if_true, objGet, List.find?_map, hpred]
    unfold hasKey objGet at h
    cases hf : l.find? (fun p : String × α => p.1 == k) with
    | none => simp [hf] at h
    | some p =>
      have hpk := List.find?_some hf
      simp only [beq_iff_eq] at hpk
      simp [hf, hpk]
  · simp only [objSet, h, if_false, objGet, List.find?_append]
    have hnone : l.find? (fun p : String × α => p.1 == k) = none := by
      unfold hasKey objGet at h
      cases hf : l.find? (fun p : String × α => p.1 == k) with
      | none => rfl
      | some p => simp [hf] at h
    simp [hnone, List.find?]

theorem objGet_objSet_ne (l : List (String × α)) (k k' : String) (v : α)
    (h : k ≠ k') :
    objGet (objSet l k' v) k = objGet l k := by
  have hkk : ¬ (k' = k) := fun hkk => h hkk.symm
  by_cases hk : hasKey l k'
  · have hpred :
        (fun p : String × α => p.1 == k) ∘ (fun p => if p.1 == k' then (k', v) else p) =
          (fun p : String × α => p.1 == k) := by
      funext p
      by_cases hp : p.1 = k'
      · simp [hp, hkk]
      · simp [hp]
    simp only [objSet, hk, if_true, objGet, List.find?_map, hpred]
    cases hf : l.find? (fun p : String × α => p.1 == k) with
    | none => simp
    | some p =>
      have hpk := List.find?_some hf
      simp only [beq_iff_eq] at hpk
      have hp' : ¬ (p.1 = k') := by
        rw [hpk]
        exact h
      simp [hp']
  · simp only [objSet, hk, if_false, objGet, List.find?_append]
    have hone : List.find? (fun p : String × α => p.1 == k) [(k', v)] = none := by
      have : (k' == k) = false := beq_eq_false_iff_ne.mpr hkk
      simp [List.find?, this]
    simp [hone]

theorem objGet_mem {l : List (String × α)} {k : String} {v : α}
    (h : objGet l k = some v) : ∃ p ∈ l, p.2 = v := by
  unfold objGet at h
  cases hf : l.find? (fun p => p.1 == k) with
  | none => simp [hf] at h
  | some p =>
    refine ⟨p, List.mem_of_find?_eq_some hf, ?_⟩
    simp [hf] at h
    exact h

/-!
## C2 — concurrent-start rejection
-/

/-- C2: when the job status is `running`, `startOrganize` immediately
returns `{success: false, error: 'Already organizing'}`, leaves the job
state (in particular `total` and `done`) unchanged, and performs no writes:
the new job is rejected, not queued. -/
theorem c2_running_start_rejected (st0 : OrgState) (env : OrgEnv)
    (h : st0.status = "running") :
    startOrganize st0 env =
      ({ success := false, error := "Already organizing" }, st0, []) := by
  simp [startOrganize, h]

theorem c2_running_start_rejected_witness :
    startOrganize { status := "running", total := 5, done := 2 } {} =
      ({ success := false, error := "Already organizing" },
       { status := "running", total := 5, done := 2 }, []) :=
  c2_running_start_rejected { status := "running", total := 5, done := 2 } {} rfl

/-!
## C6 — the reconciler misses duplicates nested in category folders

`getAllBookmarksFlat` records `path` as a list of folder-title strings, but
the smart-structure test reads `p.title` of each element, which is
`undefined` for a string; the test is therefore always false and only direct
children of the smart parent count as Smart-Bookmarks items.  Duplicates
sitting inside a category folder (the normal location of clones) are
classified as regular bookmarks and never reconciled.
-/

/-- C6 (failing input): two bookmarks with identical URL and title inside a
category folder (`parentId` = the folder, `path` contains the smart-parent
title) are not recognised as Smart-Bookmarks items: the reconciler reports
zero duplicates, removes nothing, and both bookmarks remain. -/
theorem c6_nested_duplicates_untouched :
    let b1 : Bm := { id := "a", title := "Page", url := "https://example.com/page",
                     parentId := "9", dateAdded := 100,
                     path := ["Bookmarks bar", SMART_PARENT, "📁 Other"] }
    let b2 : Bm := { id := "b", title := "Page", url := "https://example.com/page",
                     parentId := "9", dateAdded := 200,
                     path := ["Bookmarks bar", SMART_PARENT, "📁 Other"] }
    let env : DedupeEnv := { smartParentId := "1", allBookmarks := [b1, b2] }
    (removeDuplicatesFromSmartBookmarks env).1.duplicatesFound = 0 ∧
    dupsToRemove env = [] ∧
    smartBookmarksOf env = [] ∧
    regularBookmarksOf env = [b1, b2] ∧
    (SMART_PARENT ∈ b1.path ∧ isInSmartByPath b1 = false) := by
  refine ⟨?_, ?_, ?_, ?_, ?_, ?_⟩ <;> decide

/-!
## C5 — classifier totality; fetch-failure degradation
-/

/-- Non-HTML content is not emptied: a successful fetch of a non-HTML body
returns the body text, refuting "non-HTML content yields empty content". -/
theorem c5_counterexample :
    fetchPageContent (.ok "plain text; not html" "application/json") 150000 =
      "plain text; not html" ∧
    fetchPageContent (.ok "plain text; not html" "application/json") 150000 ≠ "" := by
  refine ⟨?_, ?_⟩ <;> decide

theorem mapToGeneral_ne_empty {c : String} (hc : c ≠ "") : mapToGeneral c ≠ "" := by
  unfold mapToGeneral
  cases hg : objGet GENERAL_CATEGORY_MAP c with
  | none => simpa using hc
  | some v =>
    obtain ⟨p, hp, hpv⟩ := objGet_mem hg
    have hall : ∀ q ∈ GENERAL_CATEGORY_MAP, q.2 ≠ "" := by decide
    simp only [Option.getD_some]
    rw [← hpv]
    exact hall p hp

theorem pickFold_eq_or_mem (l : List (String × Nat)) (init : String × Nat) :
    l.foldl (fun best p => if p.2 > best.2 then (p.1, p.2) else best) init = init ∨
    l.foldl (fun best p => if p.2 > best.2 then (p.1, p.2) else best) init ∈ l := by
  induction l generalizing init with
  | nil => left; rfl
  | cons a t ih =>
    simp only [List.foldl_cons]
    rcases ih (if a.2 > init.2 then (a.1, a.2) else init) with h | h
    · rw [h]
      by_cases ha : a.2 > init.2
      · right; simp [ha]
      · left; simp [ha]
    · right; exact List.mem_cons_of_mem a h

theorem localOrDefault_category_ne_empty (bagText metaDesc summary : String) :
    (localOrDefault bagText metaDesc summary).category ≠ "" := by
  by_cases hpos : (keywordPick (scoreKeywords bagText)).2 > 0
  · simp only [localOrDefault, hpos, if_true]
    rcases pickFold_eq_or_mem (scoreKeywords bagText) ("", 0) with he | hm
    · rw [keywordPick, he] at hpos
      simp at hpos
    · rw [keywordPick]
      unfold scoreKeywords at hm
      obtain ⟨q, hq, hqe⟩ := List.mem_map.mp hm
      have hkeys : ∀ p ∈ KEYWORDS, mapToGeneral p.1 ≠ "" := by decide
      have h1 := hkeys q hq
      have hfst :
          (List.foldl (fun best p => if p.2 > best.2 then (p.1, p.2) else best)
            ("", 0) (scoreKeywords bagText)).1 = q.1 := by
        unfold scoreKeywords
        rw [← hqe]
      simp only [hfst]
      exact h1
  · simp only [localOrDefault, hpos, if_false]
    decide

theorem classifyRest_category_ne_empty (env : ClassifyEnv) (store : Store)
    (bm : BmInfo) : (classifyRest env store bm).category ≠ "" := by
  simp only [classifyRest]
  cases hd : objGet DOMAIN_CATEGORY_MAP (hostAndPath bm.url).1 with
  | some dc =>
    obtain ⟨p, hp, hpv⟩ := objGet_mem hd
    have hall : ∀ q ∈ DOMAIN_CATEGORY_MAP, mapToGeneral q.2 ≠ "" := by decide
    simp only [hd]
    rw [← hpv]
    exact hall p hp
  | none =>
    simp only [hd]
    cases hh : PATH_HINTS.find?
        (fun hint => hint.1.any (fun sub =>
          includesStr (hostAndPath bm.url).2 sub)) with
    | some hint =>
      have hall : ∀ q ∈ PATH_HINTS, mapToGeneral q.2 ≠ "" := by decide
      simp only [hh]
      exact hall hint (List.mem_of_find?_eq_some hh)
    | none =>
      simp only [hh]
      by_cases hkey : store.openaiKey ≠ ""
      · rw [if_pos hkey]
        cases env.openaiCall with
        | ok c d =>
          simp only []
          apply mapToGeneral_ne_empty
          by_cases hc : trimStr c = "" <;> simp [hc]
        | fail => exact localOrDefault_category_ne_empty _ _ _
      · rw [if_neg hkey]
        exact localOrDefault_category_ne_empty _ _ _

/-- C5 (amended): the classifier is total and always returns a non-empty
category slug, for every bookmark (any id, title, url — including
unparseable URLs) and every fetch/provider outcome; a fetch timeout or
network error degrades to empty page content, while a *successful* fetch of
non-HTML content returns the body text truncated to the byte cap (it is not
emptied — the content type is never inspected).  In all cases the pipeline
continues instead of propagating an error. -/
theorem c5_classifier_total_and_fetch :
    (∀ (env : ClassifyEnv) (store : Store) (bm : BmInfo),
        (categorizeBookmarkDetailed env store bm).category ≠ "") ∧
    (∀ bytes, fetchPageContent .err bytes = "") ∧
    (∀ body ct bytes, fetchPageContent (.ok body ct) bytes = takeStr body bytes) := by
  refine ⟨?_, fun bytes => rfl, fun body ct bytes => rfl⟩
  intro env store bm
  unfold categorizeBookmarkDetailed
  cases hm : (if bm.id = "" then none else objGet store.bookmarkMeta bm.id) with
  | none => exact classifyRest_category_ne_empty env store bm
  | some m =>
    simp only [hm]
    by_cases hmp : m.manual = true ∧ m.primary ≠ ""
    · rw [if_pos hmp]
      exact hmp.2
    · rw [if_neg hmp]
      exact classifyRest_category_ne_empty env store bm

theorem c5_classifier_total_and_fetch_witness :
    (categorizeBookmarkDetailed {} {} {}).category = "other" ∧
    (categorizeBookmarkDetailed {} {} {}).category ≠ "" ∧
    fetchPageContent .err 150000 = "" :=
  ⟨by decide, c5_classifier_total_and_fetch.1 {} {} {},
   c5_classifier_total_and_fetch.2.1 150000⟩

/-!
## C1 — manual override precedence
-/

/-- C1 (counterexample): the organize step re-normalises the slug with
`toLowerCase().trim()` even for a manual record, so a stored manual primary
`"DevOps"` is overwritten with `"devops"`. -/
theorem c1_counterexample :
    let m : MetaRec := { primary := "DevOps", description := "keep me", manual := true }
    let s : LoopSt := { meta := [("b1", m)], userCategories := [], stats := {} }
    let out := orgStep { storedStrategy := "move" } "move" 0 { id := "b1", title := "T" } s
    m.manual = true ∧ m.primary = "DevOps" ∧
    (objGet out.st.meta "b1").map (fun r => r.primary) = some "devops" ∧
    ("devops" : String) ≠ "DevOps" := by
  refine ⟨?_, ?_, ?_, ?_⟩ <;> decide

theorem c1_manual_classifier (env : ClassifyEnv) (store : Store) (bm : BmInfo)
    (m : MetaRec) (hid : bm.id ≠ "")
    (hstore : objGet store.bookmarkMeta bm.id = some m)
    (hman : m.manual = true) (hp : m.primary ≠ "") :
    categorizeBookmarkDetailed env store bm =
      { category := m.primary, description := m.description, source := "manual" } := by
  unfold categorizeBookmarkDetailed
  rw [if_neg hid, hstore]
  simp only []
  rw [if_pos ⟨hman, hp⟩]

/-- C1 (amended): for a bookmark whose stored metadata has `manual = true`
and a non-empty `primary`, (i) the classifier returns the stored primary
category and description verbatim with source `manual`; and (ii) an
organization step never changes that id's `primary` or `description`,
provided the stored primary is already normalised (fixed by `toLowerCase`
and `trim` — the step re-applies this normalisation to whatever slug it
decides on, which is the only way a manual value can change). -/
theorem c1_manual_preserved (env : OrgEnv) (strategy : String) (i : Nat)
    (bm : Bm) (s : LoopSt) (m : MetaRec)
    (hid : bm.id ≠ "")
    (hloc : objGet s.meta bm.id = some m)
    (hstore : objGet env.store.bookmarkMeta bm.id = some m)
    (hman : m.manual = true)
    (hp : m.primary ≠ "")
    (hlow : lowerStr m.primary = m.primary)
    (htrim : trimStr m.primary = m.primary)
    (hclone : (env.clone i).newId ≠ bm.id) :
    (categorizeBookmarkDetailed (env.cenv i) env.store
        { id := bm.id, title := bm.title, url := bm.url } =
      { category := m.primary, description := m.description, source := "manual" }) ∧
    (∃ m', objGet (orgStep env strategy i bm s).st.meta bm.id = some m' ∧
      m'.primary = m.primary ∧ m'.description = m.description) := by
  have hclass := c1_manual_classifier (env.cenv i) env.store
    { id := bm.id, title := bm.title, url := bm.url } m hid hstore hman hp
  refine ⟨hclass, ?_⟩
  unfold orgStep
  cases hf : env.fault i with
  | some msg =>
    simp only [hf, hloc, Option.getD_some]
    exact ⟨_, objGet_objSet_self .., rfl, rfl⟩
  | none =>
    simp only [hf, hloc, Option.getD_some, hclass]
    have hsd :
        (if (m.primary != "" && ! m.needsReclassification) = true then
            (m.primary, m.description)
          else (jsOr m.primary "other", m.description)) =
          (m.primary, m.description) := by
      by_cases hr : (m.primary != "" && ! m.needsReclassification) = true
      · rw [if_pos hr]
      · rw [if_neg hr]
        simp only [jsOr, if_neg hp]
    simp only [hsd]
    have hslug1 : (if m.primary = "" ∨ trimStr m.primary = "" then "other" else m.primary) =
        m.primary := by
      rw [if_neg]
      push_neg
      refine ⟨hp, ?_⟩
      rw [htrim]
      exact hp
    simp only [hslug1]
    have hslug : trimStr (lowerStr m.primary) = m.primary := by rw [hlow, htrim]
    simp only [hslug]
    by_cases hmv : strategy = "move"
    · rw [if_pos hmv]
      refine ⟨_, objGet_objSet_self s.meta bm.id _, ?_, ?_⟩ <;> rfl
    · rw [if_neg hmv]
      by_cases hok : (env.clone i).ok = true
      · rw [if_pos hok]
        refine ⟨{ primary := m.primary, description := m.description,
                  manual := m.manual, needsReclassification := false,
                  organized := true, organizedAt := env.now,
                  clonedFrom := m.clonedFrom, organizeFailed := m.organizeFailed,
                  lastError := m.lastError, categories := m.categories,
                  tags := m.tags }, ?_, rfl, rfl⟩
        rw [objGet_objSet_ne _ _ _ _ (fun he => hclone he.symm)]
        exact objGet_objSet_self s.meta bm.id _
      · rw [if_neg hok]
        refine ⟨_, objGet_objSet_self s.meta bm.id _, ?_, ?_⟩ <;> rfl

theorem c1_manual_preserved_witness :
    let bm : Bm := { id := "b1", title := "T" }
    let m : MetaRec := { primary := "devops", description := "keep me", manual := true }
    let s : LoopSt := { meta := [("b1", m)], userCategories := [], stats := {} }
    let env : OrgEnv := { store := { bookmarkMeta := [("b1", m)] } }
    ∃ m', objGet (orgStep env "move" 0 bm s).st.meta "b1" = some m' ∧
      m'.primary = "devops" ∧ m'.description = "keep me" :=
  (c1_manual_preserved { store := { bookmarkMeta :=
      [("b1", { primary := "devops", description := "keep me", manual := true })] } }
    "move" 0 { id := "b1", title := "T" }
    { meta := [("b1", { primary := "devops", description := "keep me", manual := true })],
      userCategories := [], stats := {} }
    { primary := "devops", description := "keep me", manual := true }
    (by decide) (by decide) (by decide) (by decide) (by decide)
    (by decide) (by decide) (by decide)).2

/-!
## C8 — found vs removed counts
-/

/-- C8 (counterexample): two bookmarks with identical URL *and* identical
title are counted by the exact pass and again by the URL-only pass, so
`duplicatesFound = 2` while only one bookmark is marked and removed:
with every removal succeeding, `duplicatesRemoved = 1 ≠ duplicatesFound`. -/
theorem c8_counterexample :
    let env : DedupeEnv := { smartParentId := "1",
                             allBookmarks :=
                               [{ id := "a", title := "Page", url := "https://example.com/page",
                                  parentId := "1", dateAdded := 100 },
                                { id := "b", title := "Page", url := "https://example.com/page",
                                  parentId := "1", dateAdded := 200 }] }
    (∀ d ∈ dupsToRemove env, env.removeOk d.id = true) ∧
    (removeDuplicatesFromSmartBookmarks env).1.duplicatesFound = 2 ∧
    (removeDuplicatesFromSmartBookmarks env).1.duplicatesRemoved = 1 ∧
    (removeDuplicatesFromSmartBookmarks env).1.duplicatesRemoved ≠
      (removeDuplicatesFromSmartBookmarks env).1.duplicatesFound := by
  refine ⟨?_, ?_, ?_, ?_⟩ <;> decide

theorem removalFold_count (ok : String → Bool) (meta0 : MetaStore) (l : List Bm) :
    (removalFold ok meta0 l).1 = l.countP (fun d => ok d.id) := by
  unfold removalFold
  suffices h : ∀ acc : Nat × MetaStore,
      (l.foldl (fun acc d => if ok d.id then (acc.1 + 1, objDelete acc.2 d.id) else acc)
          acc).1 =
        acc.1 + l.countP (fun d => ok d.id) by
    simpa using h (0, meta0)
  induction l with
  | nil => simp
  | cons a t ih =>
    intro acc
    by_cases ha : ok a.id
    · simp only [List.foldl_cons, List.countP_cons, ha, if_pos]
      rw [ih]
      simp [ha]
      omega
    · simp only [List.foldl_cons, List.countP_cons, if_neg ha]
      rw [ih]
      simp [ha]

theorem insertByDate_length (a : Bm) (l : List Bm) :
    (insertByDate a l).length = l.length + 1 := by
  induction l with
  | nil => rfl
  | cons b t ih =>
    unfold insertByDate
    by_cases hb : b.dateAdded < a.dateAdded
    · simp [hb, ih]
    · simp [hb]

theorem sortByDate_length (l : List Bm) : (sortByDate l).length = l.length := by
  induction l with
  | nil => rfl
  | cons a t ih => simp [sortByDate, insertByDate_length, ih]

theorem exactPass_len (l : List Bm) : (exactPass l).2.length = (exactPass l).1 := by
  unfold exactPass
  have h := foldl_inv
    (P := fun acc : Nat × List Bm => acc.2.length = acc.1)
    (f := fun acc g =>
      if g.length > 1 then (acc.1 + (g.length - 1), acc.2 ++ (sortByDate g).tail)
      else acc)
    (by
      intro acc g hacc
      by_cases hg : g.length > 1
      · simp only [hg, if_pos, List.length_append, List.length_tail, sortByDate_length, hacc]
      · simpa [hg] using hacc)
    (groupsBy exactKey l) (0, []) rfl
  exact h

theorem addIfNew_fold_length (xs : List Bm) :
    ∀ acc : List Bm, (xs.foldl addIfNew acc).length ≤ acc.length + xs.length := by
  induction xs with
  | nil => simp
  | cons x t ih =>
    intro acc
    have h1 : (addIfNew acc x).length ≤ acc.length + 1 := by
      unfold addIfNew
      by_cases hx : acc.any (fun d => d.id == x.id)
      · simp [hx]
      · simp [hx]
    have h2 := ih (addIfNew acc x)
    simp only [List.foldl_cons, List.length_cons]
    omega

theorem urlOnlyPass_len (l : List Bm) (start : Nat × List Bm)
    (hstart : start.2.length ≤ start.1) :
    (urlOnlyPass l start).2.length ≤ (urlOnlyPass l start).1 := by
  unfold urlOnlyPass
  refine foldl_inv (P := fun acc : Nat × List Bm => acc.2.length ≤ acc.1) ?_ _ _ hstart
  intro acc g hacc
  by_cases hg : g.length > 1
  · simp only [hg, if_pos]
    refine foldl_inv (P := fun acc2 : Nat × List Bm => acc2.2.length ≤ acc2.1) ?_ _ _ hacc
    intro acc2 tg hacc2
    by_cases htg : tg.length > 1
    · simp only [htg, if_pos]
      refine le_trans (addIfNew_fold_length _ _) ?_
      have hlen : (sortByDate tg).tail.length = tg.length - 1 := by
        simp [List.length_tail, sortByDate_length]
      rw [hlen]
      omega
    · simpa [htg] using hacc2
  · simpa [hg] using hacc

/-- C8 (amended): `duplicatesRemoved` counts exactly the successful removals
of the marked list; it never exceeds `duplicatesFound`; and when every
removal succeeds it equals the number of *distinct* bookmarks marked for
removal — which can still be smaller than `duplicatesFound`, because a group
duplicated under the exact URL-and-title key is counted again by the
URL-only pass (`duplicatesFound` double-counts, see the counterexample). -/
theorem c8_removed_counts_successes (env : DedupeEnv) :
    (removeDuplicatesFromSmartBookmarks env).1.duplicatesRemoved =
      (dupsToRemove env).countP (fun d => env.removeOk d.id) ∧
    (removeDuplicatesFromSmartBookmarks env).1.duplicatesRemoved ≤
      (removeDuplicatesFromSmartBookmarks env).1.duplicatesFound ∧
    ((∀ d ∈ dupsToRemove env, env.removeOk d.id = true) →
      (removeDuplicatesFromSmartBookmarks env).1.duplicatesRemoved =
        (dupsToRemove env).length) := by
  have hcount : (removeDuplicatesFromSmartBookmarks env).1.duplicatesRemoved =
      (dupsToRemove env).countP (fun d => env.removeOk d.id) := by
    unfold removeDuplicatesFromSmartBookmarks
    exact removalFold_count env.removeOk env.bookmarkMeta (dupsToRemove env)
  refine ⟨hcount, ?_, ?_⟩
  · rw [hcount]
    have h1 : (dupsToRemove env).countP (fun d => env.removeOk d.id) ≤
        (dupsToRemove env).length := List.countP_le_length _
    have h2 : (dupsToRemove env).length ≤ dupsFound env := by
      have := urlOnlyPass_len (smartWithUrl env) (exactPass (smartWithUrl env))
        (le_of_eq (exactPass_len (smartWithUrl env)))
      exact this
    have hfound : (removeDuplicatesFromSmartBookmarks env).1.duplicatesFound =
        dupsFound env := rfl
    rw [hfound]
    exact le_trans h1 h2
  · intro hall
    rw [hcount]
    exact List.countP_eq_length.mpr (fun d hd => by simpa using hall d hd)

theorem c8_removed_counts_successes_witness :
    let env : DedupeEnv := { smartParentId := "1",
                             allBookmarks :=
                               [{ id := "a", title := "Page", url := "https://example.com/page",
                                  parentId := "1", dateAdded := 100 },
                                { id := "b", title := "Page", url := "https://example.com/page",
                                  parentId := "1", dateAdded := 200 }] }
    (∀ d ∈ dupsToRemove env, env.removeOk d.id = true) ∧
    (removeDuplicatesFromSmartBookmarks env).1.duplicatesRemoved =
      (dupsToRemove env).length :=
  ⟨by decide, (c8_removed_counts_successes _).2.2 (by decide)⟩

/-!
## C9 — category deletion and reassignment

The handler reassigns only bookmarks that are direct children of the removed
category's *located folder*; metadata records referencing the deleted slug
from anywhere else (an unlocated folder, or the untouched originals created
by the clone strategy) keep the deleted slug.
-/

/-- C9 (counterexample): a deleted slug with a metadata record but no
corresponding folder under the smart parent: the handler leaves the record
untouched, so it still references the deleted slug as primary. -/
theorem c9_counterexample :
    let env : TaxEnv := { oldCats := [("dev", { id := "dev", name := "Dev" })],
                          newCats := [], meta0 := [("b1", { primary := "dev" })] }
    removedSlugs env = ["dev"] ∧
    (updateUserCategories env).1 = [("b1", { primary := "dev" })] ∧
    ((objGet (updateUserCategories env).1 "b1").map (fun r => r.primary)) = some "dev" ∧
    (updateUserCategories env).2.2 = [] := by
  refine ⟨?_, ?_, ?_, ?_⟩ <;> decide

theorem taxChild_preserves_other (slug fallback : String) (targetF : String → String)
    (acc : MetaStore × List TaxEv) (c : Folder) (x : String) (hx : x ≠ c.id) :
    objGet (taxProcessChild slug fallback targetF acc c).1 x = objGet acc.1 x := by
  unfold taxProcessChild
  by_cases hc : c.url != ""
  · simp only [hc, if_pos]
    cases hm : objGet acc.1 c.id with
    | some mRec =>
      simp only [hm]
      exact objGet_objSet_ne _ _ _ _ hx
    | none => simp only [hm]
  · simp only [hc]
    rw [if_neg (by simpa using hc)]

theorem taxChild_presence (slug fallback : String) (targetF : String → String)
    (acc : MetaStore × List TaxEv) (c : Folder) (x : String)
    (h : (objGet acc.1 x).isSome) :
    (objGet (taxProcessChild slug fallback targetF acc c).1 x).isSome := by
  by_cases hx : x = c.id
  · unfold taxProcessChild
    by_cases hc : (c.url != "") = true
    · rw [if_pos hc]
      cases hm : objGet acc.1 c.id with
      | some mRec =>
        simp only [hm]
        rw [hx, objGet_objSet_self]
        rfl
      | none =>
        simp only [hm]
        exact h
    · rw [if_neg hc]
      exact h
  · rw [taxChild_preserves_other _ _ _ _ _ _ hx]
    exact h

theorem jsOr_headD_filter_ne (cats : List String) (slug fallback : String)
    (hslug : slug ≠ "") (hfb : fallback ≠ slug) :
    jsOr ((cats.filter (fun cc => ¬ cc == slug)).headD "") fallback ≠ slug := by
  cases hL : cats.filter (fun cc => ¬ cc == slug) with
  | nil => simpa [jsOr] using hfb
  | cons y ys =>
    have hy : y ∈ cats.filter (fun cc => ¬ cc == slug) := by
      rw [hL]
      exact List.mem_cons_self y ys
    have hyne : y ≠ slug := by
      have h2 := (List.mem_filter.mp hy).2
      simpa using h2
    simp only [hL, List.headD_cons]
    unfold jsOr
    by_cases hye : y = ""
    · rw [if_pos hye]
      exact hfb
    · rw [if_neg hye]
      exact hyne

theorem slug_not_mem_filter (cats : List String) (slug : String) :
    slug ∉ cats.filter (fun cc => ¬ cc == slug) := by
  intro hmem
  have h2 := (List.mem_filter.mp hmem).2
  simp at h2

theorem taxChild_invariant (slug fallback : String) (targetF : String → String)
    (acc : MetaStore × List TaxEv) (c : Folder) (x : String)
    (hslug : slug ≠ "") (hfb : fallback ≠ slug)
    (h : ∃ m', objGet acc.1 x = some m' ∧ m'.manual = true ∧ m'.primary ≠ slug ∧
      slug ∉ m'.categories) :
    ∃ m', objGet (taxProcessChild slug fallback targetF acc c).1 x = some m' ∧
      m'.manual = true ∧ m'.primary ≠ slug ∧ slug ∉ m'.categories := by
  obtain ⟨m', hget, hman, hprim, hcats⟩ := h
  by_cases hx : x = c.id
  · unfold taxProcessChild
    by_cases hc : (c.url != "") = true
    · rw [if_pos hc]
      rw [hx] at hget ⊢
      simp only [hget]
      refine ⟨_, objGet_objSet_self _ _ _, rfl, ?_, ?_⟩
      · simp only []
        rw [if_neg hprim]
        exact hprim
      · exact slug_not_mem_filter m'.categories slug
    · rw [if_neg hc]
      exact ⟨m', hget, hman, hprim, hcats⟩
  · rw [taxChild_preserves_other _ _ _ _ _ _ hx]
    exact ⟨m', hget, hman, hprim, hcats⟩

theorem taxChild_establishes (slug fallback : String) (targetF : String → String)
    (acc : MetaStore × List TaxEv) (c : Folder) (m : MetaRec)
    (hurl : c.url ≠ "") (hm : objGet acc.1 c.id = some m)
    (hslug : slug ≠ "") (hfb : fallback ≠ slug) :
    ∃ m', objGet (taxProcessChild slug fallback targetF acc c).1 c.id = some m' ∧
      m'.manual = true ∧ m'.primary ≠ slug ∧ slug ∉ m'.categories := by
  unfold taxProcessChild
  rw [if_pos (by simpa using hurl)]
  simp only [hm]
  refine ⟨_, objGet_objSet_self _ _ _, rfl, ?_, ?_⟩
  · simp only []
    by_cases hp : m.primary = slug
    · rw [if_pos hp]
      exact jsOr_headD_filter_ne m.categories slug fallback hslug hfb
    · rw [if_neg hp]
      exact hp
  · exact slug_not_mem_filter m.categories slug

theorem taxChildren_fold_invariant (slug fallback : String) (targetF : String → String)
    (c : Folder) (hurl : c.url ≠ "") (hslug : slug ≠ "") (hfb : fallback ≠ slug) :
    ∀ (L : List Folder) (acc : MetaStore × List TaxEv),
      c ∈ L → (objGet acc.1 c.id).isSome →
      ∃ m', objGet (L.foldl (taxProcessChild slug fallback targetF) acc).1 c.id = some m' ∧
        m'.manual = true ∧ m'.primary ≠ slug ∧ slug ∉ m'.categories := by
  intro L
  induction L with
  | nil =>
    intro acc hc _
    cases hc
  | cons d t ih =>
    intro acc hc hm
    rcases List.mem_cons.mp hc with hcd | hct
    · subst hcd
      cases hmm : objGet acc.1 c.id with
      | none => simp [hmm] at hm
      | some m =>
        have hest := taxChild_establishes slug fallback targetF acc c m hurl hmm hslug hfb
        simp only [List.foldl_cons]
        exact foldl_inv
          (P := fun ms : MetaStore × List TaxEv =>
            ∃ m', objGet ms.1 c.id = some m' ∧ m'.manual = true ∧
              m'.primary ≠ slug ∧ slug ∉ m'.categories)
          (fun b a hb => taxChild_invariant slug fallback targetF b a c.id hslug hfb hb)
          t _ hest
    · simp only [List.foldl_cons]
      exact ih _ hct (taxChild_presence slug fallback targetF acc d c.id hm)

theorem taxChildren_fold_absent (slug fallback : String) (targetF : String → String)
    (x : String) :
    ∀ (L : List Folder) (acc : MetaStore × List TaxEv),
      (∀ c ∈ L, x ≠ c.id) →
      objGet (L.foldl (taxProcessChild slug fallback targetF) acc).1 x = objGet acc.1 x := by
  intro L
  induction L with
  | nil =>
    intro acc _
    rfl
  | cons d t ih =>
    intro acc hx
    simp only [List.foldl_cons]
    rw [ih _ (fun c hc => hx c (List.mem_cons_of_mem d hc))]
    exact taxChild_preserves_other slug fallback targetF acc d x (hx d (by simp))

theorem hasKey_iff_mem_keys (l : List (String × α)) (k : String) :
    hasKey l k = true ↔ k ∈ objKeys l := by
  unfold hasKey objGet objKeys
  cases hf : l.find? (fun p => p.1 == k) with
  | none =>
    simp only [Option.map_none, Option.isSome]
    rw [List.find?_eq_none] at hf
    constructor
    · intro h; cases h
    · intro hmem
      obtain ⟨p, hp, hpk⟩ := List.mem_map.mp hmem
      exact absurd (by simp [hpk] : (fun q : String × α => q.1 == k) p = true) (hf p hp)
  | some p =>
    simp only [Option.map_some, Option.isSome]
    have hpk := List.find?_some hf
    simp only [beq_iff_eq] at hpk
    have hp := List.mem_of_find?_eq_some hf
    constructor
    · intro _
      exact List.mem_map.mpr ⟨p, hp, hpk⟩
    · intro _; rfl

theorem fallbackSlug_ne_removed (newCats : CatStore) (slug : String)
    (hslug : slug ≠ "") (hnk : hasKey newCats slug = false) :
    fallbackSlugOf newCats ≠ slug := by
  unfold fallbackSlugOf
  by_cases ho : hasKey newCats "other" = true
  · rw [if_pos ho]
    intro heq
    rw [← heq] at hnk
    rw [ho] at hnk
    cases hnk
  · rw [if_neg ho]
    cases hk : objKeys newCats with
    | nil =>
      simp only [hk, List.headD_nil]
      exact fun h => hslug h.symm
    | cons y ys =>
      simp only [hk, List.headD_cons]
      intro heq
      have : hasKey newCats slug = true := by
        rw [hasKey_iff_mem_keys, hk, ← heq]
        simp
      rw [this] at hnk
      cases hnk

/-- C9 (amended): on a bulk taxonomy update that deletes exactly one slug,
the fallback is the slug literally named `other` if it survives, else the
first remaining slug, else none; when the deleted category's folder is
located under the smart parent, every child of that folder that has a
metadata record ends up marked `manual = true` with the deleted slug removed
from its categories and a primary different from the deleted slug, and a
`removeTree` of the folder is issued.  Metadata records of items that are
not children of that folder are untouched — in particular they may keep
referencing the deleted slug (see the counterexample), so "zero records
reference the deleted slug" does not hold globally. -/
theorem c9_deletion_reassignment (env : TaxEnv) (slug fid : String)
    (hrem : removedSlugs env = [slug]) (hslug : slug ≠ "")
    (hloc : locateFolder env slug = some fid) :
    (hasKey env.newCats "other" = true → fallbackSlugOf env.newCats = "other") ∧
    (hasKey env.newCats "other" = false →
      fallbackSlugOf env.newCats = (objKeys env.newCats).headD "") ∧
    (∀ c ∈ env.folderChildren fid, c.url ≠ "" → (objGet env.meta0 c.id).isSome →
      ∃ m', objGet (updateUserCategories env).1 c.id = some m' ∧
        m'.manual = true ∧ m'.primary ≠ slug ∧ slug ∉ m'.categories) ∧
    TaxEv.removeTree fid ∈ (updateUserCategories env).2.2 ∧
    (∀ x, (∀ c ∈ env.folderChildren fid, x ≠ c.id) →
      objGet (updateUserCategories env).1 x = objGet env.meta0 x) := by
  have hnk : hasKey env.newCats slug = false := by
    have hmem : slug ∈ removedSlugs env := by rw [hrem]; simp
    have := (List.mem_filter.mp hmem).2
    simpa using this
  have hfb : fallbackSlugOf env.newCats ≠ slug :=
    fallbackSlug_ne_removed env.newCats slug hslug hnk
  have hne : ¬ (removedSlugs env).isEmpty = true := by
    rw [hrem]
    simp
  have hrun : updateUserCategories env =
      (((env.folderChildren fid).foldl
          (taxProcessChild slug (fallbackSlugOf env.newCats) env.folderIdOf)
          (env.meta0, [])).1,
        env.newCats,
        ((env.folderChildren fid).foldl
          (taxProcessChild slug (fallbackSlugOf env.newCats) env.folderIdOf)
          (env.meta0, [])).2 ++ [TaxEv.removeTree fid]) := by
    unfold updateUserCategories taxProcessSlug
    rw [hrem]
    simp only [hloc, List.isEmpty_cons, Bool.false_eq_true, if_false,
      List.foldl_cons, List.foldl_nil]
  refine ⟨fun h => by simp [fallbackSlugOf, h], fun h => by simp [fallbackSlugOf, h], ?_, ?_, ?_⟩
  · intro c hc hurl hm
    rw [hrun]
    exact taxChildren_fold_invariant slug (fallbackSlugOf env.newCats) env.folderIdOf
      c hurl hslug hfb (env.folderChildren fid) (env.meta0, []) hc hm
  · rw [hrun]
    simp
  · intro x hx
    rw [hrun]
    exact taxChildren_fold_absent slug (fallbackSlugOf env.newCats) env.folderIdOf
      x (env.folderChildren fid) (env.meta0, []) hx

theorem c9_deletion_reassignment_witness :
    let env : TaxEnv := { oldCats := [("dev", { id := "dev", name := "Dev" })],
                          newCats := [("other", { id := "other", name := "Other" })],
                          meta0 := [("x1", { primary := "dev", categories := ["dev", "misc"] })],
                          smartChildren := [{ id := "f9", title := "Dev" }],
                          folderChildren := fun fid =>
                            if fid == "f9" then [{ id := "x1", title := "B", url := "https://e.x/p" }]
                            else [] }
    ∃ m', objGet (updateUserCategories env).1 "x1" = some m' ∧
      m'.manual = true ∧ m'.primary ≠ "dev" ∧ "dev" ∉ m'.categories :=
  (c9_deletion_reassignment _ "dev" "f9" (by decide) (by decide) (by decide)).2.2.1
    { id := "x1", title := "B", url := "https://e.x/p" } (by decide) (by decide) (by decide)

/-!
## C7 — the keyword rule
-/

theorem pickFold_le (l : List (String × Nat)) :
    ∀ init : String × Nat,
      init.2 ≤ (l.foldl (fun best p => if p.2 > best.2 then (p.1, p.2) else best) init).2 := by
  induction l with
  | nil => intro init; exact le_refl _
  | cons a t ih =>
    intro init
    simp only [List.foldl_cons]
    refine le_trans ?_ (ih (if a.2 > init.2 then (a.1, a.2) else init))
    by_cases ha : a.2 > init.2
    · rw [if_pos ha]
      exact le_of_lt ha
    · rw [if_neg ha]

theorem pickFold_ge (l : List (String × Nat)) :
    ∀ (init : String × Nat) (p : String × Nat), p ∈ l →
      p.2 ≤ (l.foldl (fun best p => if p.2 > best.2 then (p.1, p.2) else best) init).2 := by
  induction l with
  | nil =>
    intro init p hp
    cases hp
  | cons a t ih =>
    intro init p hp
    simp only [List.foldl_cons]
    rcases List.mem_cons.mp hp with hpa | hpt
    · subst hpa
      refine le_trans ?_ (pickFold_le t _)
      by_cases ha : p.2 > init.2
      · rw [if_pos ha]
      · rw [if_neg ha]
        omega
    · exact ih _ p hpt

theorem pickFold_all_zero (l : List (String × Nat))
    (h : ∀ p ∈ l, p.2 = 0) :
    ∀ init : String × Nat,
      l.foldl (fun best p => if p.2 > best.2 then (p.1, p.2) else best) init = init := by
  induction l with
  | nil => intro init; rfl
  | cons a t ih =>
    intro init
    simp only [List.foldl_cons]
    have ha : a.2 = 0 := h a (by simp)
    have hno : ¬ a.2 > init.2 := by omega
    rw [if_neg hno]
    exact ih (fun p hp => h p (List.mem_cons_of_mem a hp)) init

theorem pickFold_split (l : List (String × Nat)) :
    ∀ init : String × Nat,
      l.foldl (fun best p => if p.2 > best.2 then (p.1, p.2) else best) init = init ∨
      (init.2 < (l.foldl (fun best p => if p.2 > best.2 then (p.1, p.2) else best) init).2 ∧
        ∃ l₁ l₂, l = l₁ ++
            (l.foldl (fun best p => if p.2 > best.2 then (p.1, p.2) else best) init) :: l₂ ∧
          ∀ p ∈ l₁,
            p.2 < (l.foldl (fun best p => if p.2 > best.2 then (p.1, p.2) else best) init).2) := by
  induction l with
  | nil => intro init; left; rfl
  | cons a t ih =>
    intro init
    simp only [List.foldl_cons]
    by_cases ha : a.2 > init.2
    · rw [if_pos ha]
      rcases ih (a.1, a.2) with he | ⟨hlt, l₁, l₂, heq, hall⟩
      · right
        rw [he]
        refine ⟨ha, [], t, by simp, by simp⟩
      · right
        refine ⟨lt_trans ha hlt, a :: l₁, l₂, by rw [List.cons_append, ← heq], ?_⟩
        intro p hp
        rcases List.mem_cons.mp hp with hpa | hpl
        · subst hpa
          exact hlt
        · exact hall p hpl
    · rw [if_neg ha]
      rcases ih init with he | ⟨hlt, l₁, l₂, heq, hall⟩
      · left
        exact he
      · right
        refine ⟨hlt, a :: l₁, l₂, by rw [List.cons_append, ← heq], ?_⟩
        intro p hp
        rcases List.mem_cons.mp hp with hpa | hpl
        · subst hpa
          omega
        · exact hall p hpl

/-- C7: the keyword rule scores each candidate category by the number of its
keywords occurring (as substrings) in the text bag; the winner is the
first-declared category achieving the strictly-highest positive score (so a
tie is broken in favour of the earlier-declared category, and every earlier
category scores strictly lower than the winner); a zero score across all
categories yields no keyword match, and the classifier then falls through to
the default `other`/`default` result. -/
theorem c7_keyword_rule :
    (∀ bag : String,
      ((keywordPick (scoreKeywords bag)).2 = 0 ↔ ∀ p ∈ scoreKeywords bag, p.2 = 0)) ∧
    (∀ (bag : String) (cat : String) (s : Nat),
      keywordPick (scoreKeywords bag) = (cat, s) → 0 < s →
      (∃ l₁ l₂, scoreKeywords bag = l₁ ++ (cat, s) :: l₂ ∧ ∀ p ∈ l₁, p.2 < s) ∧
      ∀ p ∈ scoreKeywords bag, p.2 ≤ s) ∧
    (∀ (env : ClassifyEnv) (store : Store) (bm : BmInfo),
      (∀ p ∈ scoreKeywords (textBagFromHtml (fetchPageContent env.fetchOut)), p.2 = 0) →
      objGet DOMAIN_CATEGORY_MAP (hostAndPath bm.url).1 = none →
      PATH_HINTS.find?
        (fun hint => hint.1.any (fun sub => includesStr (hostAndPath bm.url).2 sub)) = none →
      store.openaiKey = "" →
      (classifyRest env store bm).category = "other" ∧
        (classifyRest env store bm).source = "default") := by
  refine ⟨?_, ?_, ?_⟩
  · intro bag
    constructor
    · intro h0 p hp
      have := pickFold_ge (scoreKeywords bag) ("", 0) p hp
      rw [keywordPick] at h0
      omega
    · intro hall
      rw [keywordPick, pickFold_all_zero (scoreKeywords bag) hall ("", 0)]
  · intro bag cat s hpick hs
    constructor
    · rcases pickFold_split (scoreKeywords bag) ("", 0) with he | ⟨_, l₁, l₂, heq, hall⟩
      · rw [keywordPick] at hpick
        rw [he] at hpick
        cases hpick
        omega
      · rw [keywordPick] at hpick
        rw [hpick] at heq hall
        exact ⟨l₁, l₂, heq, hall⟩
    · intro p hp
      have := pickFold_ge (scoreKeywords bag) ("", 0) p hp
      rw [keywordPick] at hpick
      rw [hpick] at this
      exact this
  · intro env store bm hzero hdom hpath hkey
    have hpick : (keywordPick (scoreKeywords
        (textBagFromHtml (fetchPageContent env.fetchOut)))).2 = 0 := by
      rw [keywordPick, pickFold_all_zero _ hzero ("", 0)]
    have hld :
        (localOrDefault (textBagFromHtml (fetchPageContent env.fetchOut))
            (extractMetaDesc (fetchPageContent env.fetchOut))
            (summaryOf (textBagFromHtml (fetchPageContent env.fetchOut)))).category =
          "other" ∧
        (localOrDefault (textBagFromHtml (fetchPageContent env.fetchOut))
            (extractMetaDesc (fetchPageContent env.fetchOut))
            (summaryOf (textBagFromHtml (fetchPageContent env.fetchOut)))).source =
          "default" := by
      have hno : ¬ (keywordPick (scoreKeywords
          (textBagFromHtml (fetchPageContent env.fetchOut)))).2 > 0 := by omega
      constructor
      · simp only [localOrDefault, hno, if_false]
        decide
      · simp only [localOrDefault, hno, if_false]
    have hrest : classifyRest env store bm =
        localOrDefault (textBagFromHtml (fetchPageContent env.fetchOut))
          (extractMetaDesc (fetchPageContent env.fetchOut))
          (summaryOf (textBagFromHtml (fetchPageContent env.fetchOut))) := by
      simp only [classifyRest, hdom, hpath]
      rw [if_neg (by simpa using hkey)]
    rw [hrest]
    exact hld

theorem c7_keyword_rule_witness :
    (classifyRest {} {} {}).category = "other" ∧ (classifyRest {} {} {}).source = "default" :=
  c7_keyword_rule.2.2 {} {} {} (by decide) (by decide) (by decide) rfl

/-!
## C3/C4 — job-run trace lemmas
-/

theorem startOrganize_run (st0 : OrgState) (env : OrgEnv)
    (hs : ¬ st0.status = "running") (hne : ¬ (toProcessOf env).length = 0) :
    startOrganize st0 env = ({ success := true }, stDoneOf env, trRunOf env) := by
  simp only [startOrganize, if_neg hs, if_neg hne, st1Of, s0Of, loopOf, stDoneOf, trRunOf]

theorem broadcastDones_append (a b : List Ev) :
    broadcastDones (a ++ b) = broadcastDones a ++ broadcastDones b :=
  List.filterMap_append a b _

theorem broadcastsOf_append (a b : List Ev) :
    broadcastsOf (a ++ b) = broadcastsOf a ++ broadcastsOf b :=
  List.filterMap_append a b _

theorem broadcastDones_mem_imp {tr : List Ev} {x : Nat}
    (hx : x ∈ broadcastDones tr) : ∃ p, Ev.broadcast p ∈ tr ∧ p.done = x := by
  unfold broadcastDones at hx
  obtain ⟨e, he, hfe⟩ := List.mem_filterMap.mp hx
  cases e with
  | broadcast p => exact ⟨p, he, by simpa using hfe⟩
  | saveOrgState st => simp at hfe
  | saveStore => simp at hfe
  | saveStats => simp at hfe
  | ensureFolder a => simp at hfe
  | moveBm a b => simp at hfe
  | createBm a b c => simp at hfe
  | dedupeRun => simp at hfe

theorem orgStep_no_broadcast (env : OrgEnv) (strategy : String) (i : Nat) (bm : Bm)
    (s : LoopSt) (p : Progress) :
    Ev.broadcast p ∉ (orgStep env strategy i bm s).evs := by
  unfold orgStep
  cases hf : env.fault i with
  | some msg => simp
  | none =>
    by_cases hmv : strategy = "move"
    · simp [hmv]
    · by_cases hok : (env.clone i).ok = true
      · simp [hmv, hok]
      · simp [hmv, hok]

theorem orgStep_dones_nil (env : OrgEnv) (strategy : String) (i : Nat) (bm : Bm)
    (s : LoopSt) : broadcastDones (orgStep env strategy i bm s).evs = [] := by
  unfold broadcastDones
  rw [List.filterMap_eq_nil_iff]
  intro e he
  cases e with
  | broadcast p => exact absurd he (orgStep_no_broadcast env strategy i bm s p)
  | saveOrgState st => rfl
  | saveStore => rfl
  | saveStats => rfl
  | ensureFolder a => rfl
  | moveBm a b => rfl
  | createBm a b c => rfl
  | dedupeRun => rfl

theorem orgStep_progress_true (env : OrgEnv) (strategy : String) (i : Nat) (bm : Bm)
    (s : LoopSt)
    (h : (env.fault i).isSome ∨ strategy = "move" ∨ (env.clone i).ok = true) :
    (orgStep env strategy i bm s).progress = true := by
  unfold orgStep
  cases hf : env.fault i with
  | some msg => simp
  | none =>
    rcases h with hf2 | hmv | hok
    · rw [hf] at hf2
      simp at hf2
    · simp [hmv]
    · by_cases hmv : strategy = "move"
      · simp [hmv]
      · simp [hmv, hok]

theorem cancelledAt_mono (env : OrgEnv) {i j : Nat} (hij : j ≤ i)
    (hj : cancelledAt env j = true) : cancelledAt env i = true := by
  cases hc : env.cancelAt with
  | none =>
    unfold cancelledAt at hj
    rw [hc] at hj
    cases hj
  | some k =>
    unfold cancelledAt at hj ⊢
    rw [hc] at hj ⊢
    have hk : k ≤ j := of_decide_eq_true hj
    exact decide_eq_true (le_trans hk hij)

theorem enumFrom_fst_bound (n : Nat) (l : List α) :
    ∀ p ∈ List.enumFrom n l, n ≤ p.1 ∧ p.1 < n + l.length := by
  induction l generalizing n with
  | nil => simp [List.enumFrom]
  | cons a t ih =>
    intro p hp
    rw [List.enumFrom_cons] at hp
    rcases List.mem_cons.mp hp with hpa | hpt
    · subst hpa
      simp only [List.length_cons]
      omega
    · have h2 := ih (n + 1) p hpt
      simp only [List.length_cons]
      omega

theorem enumFrom_pairwise (n : Nat) (l : List α) :
    (List.enumFrom n l).Pairwise (fun a b => a.1 < b.1) := by
  induction l generalizing n with
  | nil => simp [List.enumFrom]
  | cons a t ih =>
    rw [List.enumFrom_cons]
    refine List.Pairwise.cons ?_ (ih (n + 1))
    intro p hp
    have h2 := (enumFrom_fst_bound (n + 1) t p hp).1
    simp only []
    omega

theorem orgLoop_broadcast_char (env : OrgEnv) (strategy : String) (base : OrgState) :
    ∀ (l : List (Nat × Bm)) (s : LoopSt) (p : Progress),
      Ev.broadcast p ∈ (orgLoop env strategy base l s).2 →
      ∃ j b, (j, b) ∈ l ∧ cancelledAt env j = false ∧
        p = { status := "running", done := j + 1, total := base.total } := by
  intro l
  induction l with
  | nil =>
    intro s p hp
    simp [orgLoop] at hp
  | cons ib t ih =>
    intro s p hp
    obtain ⟨i, bm⟩ := ib
    unfold orgLoop at hp
    by_cases hcan : cancelledAt env i = true
    · rw [if_pos hcan] at hp
      simp at hp
    · rw [if_neg hcan] at hp
      by_cases hprog : (orgStep env strategy i bm s).progress = true
      · rw [if_pos hprog] at hp
        simp only [List.mem_append] at hp
        rcases hp with (hp | hp) | hp
        · exact absurd hp (orgStep_no_broadcast env strategy i bm s p)
        · simp only [List.mem_cons, List.mem_singleton] at hp
          rcases hp with hp | hp | hp
          · cases hp
          · cases hp
            exact ⟨i, bm, by simp, by simpa using hcan, rfl⟩
          · cases hp
        · obtain ⟨j, b, hjb, hc, hpeq⟩ := ih _ p hp
          exact ⟨j, b, List.mem_cons_of_mem _ hjb, hc, hpeq⟩
      · rw [if_neg hprog] at hp
        simp only [List.mem_append] at hp
        rcases hp with hp | hp
        · exact absurd hp (orgStep_no_broadcast env strategy i bm s p)
        · obtain ⟨j, b, hjb, hc, hpeq⟩ := ih _ p hp
          exact ⟨j, b, List.mem_cons_of_mem _ hjb, hc, hpeq⟩

theorem orgLoop_dones_chain (env : OrgEnv) (strategy : String) (base : OrgState) :
    ∀ (l : List (Nat × Bm)) (s : LoopSt),
      l.Pairwise (fun a b => a.1 < b.1) →
      (broadcastDones (orgLoop env strategy base l s).2).Chain' (· ≤ ·) := by
  intro l
  induction l with
  | nil =>
    intro s _
    simp [orgLoop, broadcastDones]
  | cons ib t ih =>
    intro s hpw
    obtain ⟨i, bm⟩ := ib
    have hlt := (List.pairwise_cons.mp hpw).1
    have hpwt := (List.pairwise_cons.mp hpw).2
    unfold orgLoop
    by_cases hcan : cancelledAt env i = true
    · rw [if_pos hcan]
      simp [broadcastDones]
    · rw [if_neg hcan]
      by_cases hprog : (orgStep env strategy i bm s).progress = true
      · rw [if_pos hprog]
        simp only [broadcastDones_append, orgStep_dones_nil, List.nil_append]
        have hbd : broadcastDones
            [Ev.saveOrgState { base with done := i + 1, lastTitle := bm.title },
             Ev.broadcast { status := "running", done := i + 1, total := base.total }] =
            [i + 1] := rfl
        rw [hbd]
        rw [List.cons_append, List.nil_append, List.chain'_cons']
        constructor
        · intro y hy
          have hmem := List.mem_of_mem_head? hy
          obtain ⟨p, hpmem, hpd⟩ := broadcastDones_mem_imp hmem
          obtain ⟨j, b, hjb, _, hpeq⟩ := orgLoop_broadcast_char env strategy base t _ p hpmem
          have hij := hlt (j, b) hjb
          subst hpeq
          simp only [] at hpd
          omega
        · exact ih _ hpwt
      · rw [if_neg hprog]
        simp only [broadcastDones_append, orgStep_dones_nil, List.nil_append]
        exact ih _ hpwt

theorem orgLoop_broadcast_of_mem (env : OrgEnv) (strategy : String) (base : OrgState) :
    ∀ (l : List (Nat × Bm)) (s : LoopSt) (i : Nat) (bm : Bm),
      (i, bm) ∈ l → l.Pairwise (fun a b => a.1 < b.1) →
      cancelledAt env i = false →
      ((env.fault i).isSome ∨ strategy = "move" ∨ (env.clone i).ok = true) →
      Ev.broadcast { status := "running", done := i + 1, total := base.total } ∈
        (orgLoop env strategy base l s).2 := by
  intro l
  induction l with
  | nil =>
    intro s i bm hmem
    cases hmem
  | cons jb t ih =>
    intro s i bm hmem hpw hcan hcond
    obtain ⟨j, b⟩ := jb
    have hlt := (List.pairwise_cons.mp hpw).1
    have hpwt := (List.pairwise_cons.mp hpw).2
    unfold orgLoop
    rcases List.mem_cons.mp hmem with hhead | htail
    · cases hhead
      have hcan2 : ¬ cancelledAt env i = true := by simp [hcan]
      rw [if_neg hcan2, if_pos (orgStep_progress_true env strategy i bm s hcond)]
      simp
    · have hji : j < i := hlt (i, bm) htail
      have hcanj : ¬ cancelledAt env j = true := by
        intro hj
        rw [cancelledAt_mono env (le_of_lt hji) hj] at hcan
        cases hcan
      rw [if_neg hcanj]
      by_cases hprog : (orgStep env strategy j b s).progress = true
      · rw [if_pos hprog]
        simp only [List.mem_append]
        right
        exact ih _ i bm htail hpwt hcan hcond
      · rw [if_neg hprog]
        simp only [List.mem_append]
        right
        exact ih _ i bm htail hpwt hcan hcond

theorem chain_const (ts : List Nat) (T : Nat) (hts : ∀ x ∈ ts, x = T) :
    ts.Chain' (· ≤ ·) := by
  induction ts with
  | nil => simp
  | cons a t ih =>
    rw [List.chain'_cons']
    refine ⟨?_, ih (fun x hx => hts x (List.mem_cons_of_mem a hx))⟩
    intro y hy
    rw [hts a (by simp), hts y (List.mem_cons_of_mem a (List.mem_of_mem_head? hy))]

theorem chain_zero_append (d ts : List Nat) (T : Nat)
    (hd : d.Chain' (· ≤ ·)) (hb : ∀ x ∈ d, x ≤ T) (hts : ∀ x ∈ ts, x = T) :
    ((0 :: d) ++ ts).Chain' (· ≤ ·) := by
  rw [List.chain'_append]
  refine ⟨?_, chain_const ts T hts, ?_⟩
  · rw [List.chain'_cons']
    exact ⟨fun y _ => Nat.zero_le y, hd⟩
  · intro x hx y hy
    rw [hts y (List.mem_of_mem_head? hy)]
    have hx2 := List.mem_of_mem_getLast? hx
    rcases List.mem_cons.mp hx2 with hx0 | hxd
    · subst hx0
      exact Nat.zero_le T
    · exact hb x hxd

/-- The accepted-run trace, re-bracketed so that the fixed completion
tail is the right operand of the outermost append. -/
theorem trRunOf_split (env : OrgEnv) :
    trRunOf env =
      ([Ev.saveOrgState (st1Of env),
        Ev.broadcast { status := "running", done := 0, total := (toProcessOf env).length }] ++
       (loopOf env).2 ++ [Ev.saveStore] ++
       (if jsOr env.storedStrategy "clone" = "clone" then
         [Ev.broadcast { status := "running", done := (st1Of env).total,
                         total := (st1Of env).total, message := "Removing duplicates..." },
          Ev.dedupeRun]
        else [])) ++
      [Ev.saveOrgState (stDoneOf env),
       Ev.broadcast { status := "done", done := (st1Of env).total, total := (st1Of env).total },
       Ev.saveStats] := rfl

/-- C4 (counterexample): a failed clone creation hits `continue`, which
skips that item's progress persist/broadcast: in a 2-item run whose first
clone fails, the broadcast `done` values are `[0, 2, 2, 2]` — there is no
`done = 1` broadcast, refuting "progress is persisted and broadcast after
every item".  (The sequence is still non-decreasing.) -/
theorem c4_counterexample :
    broadcastDones (startOrganize {} c4Env).2.2 = [0, 2, 2, 2] ∧
    Ev.broadcast { status := "running", done := 1, total := 2 } ∉
      (startOrganize {} c4Env).2.2 ∧
    (broadcastDones (startOrganize {} c4Env).2.2).Chain' (· ≤ ·) := by
  have h : broadcastDones (startOrganize {} c4Env).2.2 = [0, 2, 2, 2] := by decide
  refine ⟨h, by decide, ?_⟩
  rw [h]
  simp

/-- C4 (amended): within a single job run the broadcast `done` values are
non-decreasing, and the final broadcast of a run that ends with status
`done` has `done = total`; progress is persisted and broadcast after every
item *except* an item whose clone creation fails (its `continue` skips the
update, see the counterexample). -/
theorem c4_progress_monotone (st0 : OrgState) (env : OrgEnv) :
    (broadcastDones (startOrganize st0 env).2.2).Chain' (· ≤ ·) ∧
    (∀ p, (broadcastsOf (startOrganize st0 env).2.2).getLast? = some p →
      p.status = "done" → p.done = p.total) ∧
    (st0.status ≠ "running" →
      ∀ i bm, (i, bm) ∈ (toProcessOf env).enum →
        cancelledAt env i = false →
        ((env.fault i).isSome ∨ jsOr env.storedStrategy "clone" = "move" ∨
          (env.clone i).ok = true) →
        Ev.broadcast { status := "running", done := i + 1, total := (toProcessOf env).length } ∈
          (startOrganize st0 env).2.2) := by
  by_cases hs : st0.status = "running"
  · refine ⟨?_, ?_, ?_⟩
    · simp [startOrganize, hs, broadcastDones]
    · intro p hp
      simp [startOrganize, hs, broadcastsOf] at hp
    · intro hns
      exact absurd hs hns
  · by_cases hne : (toProcessOf env).length = 0
    · have hempty : toProcessOf env = [] := List.length_eq_zero.mp hne
      refine ⟨?_, ?_, ?_⟩
      · simp [startOrganize, hs, hne, broadcastDones]
      · intro p hp
        simp [startOrganize, hs, hne, broadcastsOf] at hp
      · intro _ i bm hmem
        rw [hempty] at hmem
        simp [List.enum, List.enumFrom] at hmem
    · have hpw : ((toProcessOf env).enum).Pairwise (fun a b => a.1 < b.1) :=
        enumFrom_pairwise 0 (toProcessOf env)
      have hloopch := orgLoop_dones_chain env (jsOr env.storedStrategy "clone")
        (st1Of env) (toProcessOf env).enum (s0Of env) hpw
      have hbound : ∀ x ∈ broadcastDones (loopOf env).2, x ≤ (toProcessOf env).length := by
        intro x hx
        obtain ⟨p, hpmem, hpd⟩ := broadcastDones_mem_imp hx
        obtain ⟨j, b, hjb, _, hpeq⟩ := orgLoop_broadcast_char env
          (jsOr env.storedStrategy "clone") (st1Of env) (toProcessOf env).enum
          (s0Of env) p hpmem
        subst hpeq
        have hx2 : j + 1 = x := hpd
        have hj : j < 0 + (toProcessOf env).length :=
          (enumFrom_fst_bound 0 (toProcessOf env) (j, b) hjb).2
        omega
      rw [startOrganize_run st0 env hs hne]
      refine ⟨?_, ?_, ?_⟩
      · have hbd : broadcastDones (trRunOf env) =
            (0 :: broadcastDones (loopOf env).2) ++
              (if jsOr env.storedStrategy "clone" = "clone" then
                [(toProcessOf env).length, (toProcessOf env).length]
               else [(toProcessOf env).length]) := by
          by_cases hcl : jsOr env.storedStrategy "clone" = "clone" <;>
            simp [trRunOf, hcl, broadcastDones_append, broadcastDones, st1Of]
        rw [hbd]
        refine chain_zero_append _ _ ((toProcessOf env).length) hloopch hbound ?_
        by_cases hcl : jsOr env.storedStrategy "clone" = "clone"
        · rw [if_pos hcl]
          intro x hx
          rcases List.mem_cons.mp hx with h | h
          · exact h
          · simpa using h
        · rw [if_neg hcl]
          intro x hx
          simpa using hx
      · intro p hp _
        rw [trRunOf_split env, broadcastsOf_append] at hp
        have hE : broadcastsOf [Ev.saveOrgState (stDoneOf env), Ev.broadcast { status := "done", done := (st1Of env).total, total := (st1Of env).total }, Ev.saveStats] = [{ status := "done", done := (st1Of env).total, total := (st1Of env).total }] := rfl
        rw [hE, List.getLast?_concat] at hp
        cases hp
        rfl
      · intro _ i bm hmem hcan hcond
        have hinloop := orgLoop_broadcast_of_mem env (jsOr env.storedStrategy "clone")
          (st1Of env) (toProcessOf env).enum (s0Of env) i bm hmem hpw hcan hcond
        rw [trRunOf_split env]
        refine List.mem_append.mpr (Or.inl ?_)
        refine List.mem_append.mpr (Or.inl ?_)
        refine List.mem_append.mpr (Or.inl ?_)
        exact List.mem_append.mpr (Or.inr hinloop)

theorem c4_progress_monotone_witness :
    Ev.broadcast { status := "running", done := 1, total := 2 } ∈
      (startOrganize {} c4WitEnv).2.2 :=
  (c4_progress_monotone {} c4WitEnv).2.2 (by decide) 0 { id := "b1", title := "T1" }
    (by decide) (by decide) (Or.inr (Or.inr rfl))

/-- C3 (counterexample): a run of one item cancelled before item 0 still
performs writes after observing the cancellation: it persists the metadata
store, broadcasts the dedupe message, runs the duplicate pass, sets the job
status to `done`, saves it, broadcasts a final `done` progress and saves
stats — refuting "no new writes after cancellation is observed". -/
theorem c3_counterexample :
    c3Env.cancelAt = some 0 ∧
    (startOrganize {} c3Env).2.2 =
      [Ev.saveOrgState { status := "running", total := 1, done := 0, startedAt := 0,
                         lastTitle := "", provider := "local" },
       Ev.broadcast { status := "running", done := 0, total := 1 },
       Ev.saveStore,
       Ev.broadcast { status := "running", done := 1, total := 1,
                      message := "Removing duplicates..." },
       Ev.dedupeRun,
       Ev.saveOrgState { status := "done", total := 1, done := 0, startedAt := 0,
                         lastTitle := "", provider := "local", completedAt := 0 },
       Ev.broadcast { status := "done", done := 1, total := 1 },
       Ev.saveStats] := by
  refine ⟨rfl, ?_⟩
  decide

/-- C3 (amended): the loop checks the status before each item and stops
processing at the first item from which the external mutation is visible —
every non-dedupe `running` progress broadcast belongs to an item processed
before the cancellation point (`done ≤ k`), and per-item writes for later
items never happen; everything committed before the cancellation remains.
However, the function then still runs its completion path: it persists the
accumulated metadata (`saveStore`), optionally runs the duplicate pass, sets
the status to `done`, saves that state, broadcasts a final `done` progress
with `done = total`, and saves stats. -/
theorem c3_cancellation_stops_items (st0 : OrgState) (env : OrgEnv) (k : Nat)
    (hc : env.cancelAt = some k) (hs : ¬ st0.status = "running")
    (hne : ¬ (toProcessOf env).length = 0) :
    (∀ p, Ev.broadcast p ∈ (startOrganize st0 env).2.2 →
      p.status = "running" → p.message = "" → p.done ≤ k) ∧
    Ev.saveStore ∈ (startOrganize st0 env).2.2 ∧
    (startOrganize st0 env).2.1.status = "done" ∧
    Ev.saveOrgState (startOrganize st0 env).2.1 ∈ (startOrganize st0 env).2.2 ∧
    (∃ p, Ev.broadcast p ∈ (startOrganize st0 env).2.2 ∧ p.status = "done" ∧
      p.done = (toProcessOf env).length) ∧
    Ev.saveStats ∈ (startOrganize st0 env).2.2 := by
  rw [startOrganize_run st0 env hs hne]
  refine ⟨?_, ?_, rfl, ?_, ?_, ?_⟩
  · intro p hp hrun hmsg
    rw [trRunOf_split env] at hp
    rcases List.mem_append.mp hp with hp | hp
    · rcases List.mem_append.mp hp with hp | hp
      · rcases List.mem_append.mp hp with hp | hp
        · rcases List.mem_append.mp hp with hp | hp
          · simp only [List.mem_cons, List.not_mem_nil, or_false] at hp
            rcases hp with hp | hp
            · cases hp
            · cases hp
              exact Nat.zero_le k
          · obtain ⟨j, b, hjb, hcanj, hpeq⟩ := orgLoop_broadcast_char env
              (jsOr env.storedStrategy "clone") (st1Of env) (toProcessOf env).enum
              (s0Of env) p hp
            subst hpeq
            have hkj : ¬ k ≤ j := by
              intro hk
              have hct : cancelledAt env j = true := by
                unfold cancelledAt
                rw [hc]
                exact decide_eq_true hk
              rw [hct] at hcanj
              cases hcanj
            show j + 1 ≤ k
            omega
        · simp at hp
      · by_cases hcl : jsOr env.storedStrategy "clone" = "clone"
        · rw [if_pos hcl] at hp
          simp only [List.mem_cons, List.not_mem_nil, or_false] at hp
          rcases hp with hp | hp
          · cases hp
            simp at hmsg
          · cases hp
        · rw [if_neg hcl] at hp
          simp at hp
    · simp only [List.mem_cons, List.not_mem_nil, or_false] at hp
      rcases hp with hp | hp | hp
      · cases hp
      · cases hp
        simp at hrun
      · cases hp
  · rw [trRunOf_split env]
    refine List.mem_append.mpr (Or.inl ?_)
    refine List.mem_append.mpr (Or.inl ?_)
    exact List.mem_append.mpr (Or.inr (by simp))
  · rw [trRunOf_split env]
    exact List.mem_append.mpr (Or.inr (by simp))
  · refine ⟨{ status := "done", done := (st1Of env).total, total := (st1Of env).total },
      ?_, rfl, rfl⟩
    rw [trRunOf_split env]
    exact List.mem_append.mpr (Or.inr (by simp))
  · rw [trRunOf_split env]
    exact List.mem_append.mpr (Or.inr (by simp))

theorem c3_cancellation_stops_items_witness :
    Ev.saveStore ∈ (startOrganize {} c3Env).2.2 ∧
    (startOrganize {} c3Env).2.1.status = "done" :=
  ⟨(c3_cancellation_stops_items {} c3Env 0 rfl (by decide) (by decide)).2.1,
   (c3_cancellation_stops_items {} c3Env 0 rfl (by decide) (by decide)).2.2.1⟩

theorem strip_append (a x : String) (hx : x.data ≠ []) :
    stripTrailingSlash (a ++ x) =
      ⟨a.data ++ (if x.data.getLast? = some '/' then x.data.dropLast else x.data)⟩ := by
  unfold stripTrailingSlash
  rw [String.data_append, List.getLast?_append_of_ne_nil _ hx]
  by_cases hl : x.data.getLast? = some '/'
  · rw [if_pos hl, if_pos hl, List.dropLast_append_of_ne_nil _ hx]
  · rw [if_neg hl, if_neg hl]
    exact String.ext (String.data_append a x)

theorem replace_http_www (x : List Char) :
    replaceWwwScheme ⟨"http://www.".data ++ x⟩ = ⟨"https://".data ++ x⟩ := by
  unfold replaceWwwScheme
  have h1 : isPrefixB "http://www.".data (String.data ⟨"http://www.".data ++ x⟩) = true :=
    isPrefixB_self_append _ _
  rw [if_pos h1]
  have h2 : (String.data ⟨"http://www.".data ++ x⟩).drop 11 = x :=
    List.drop_left "http://www.".data x
  rw [h2]

theorem replace_https_nonwww (x : List Char) (hw : isPrefixB "www.".data x = false) :
    replaceWwwScheme ⟨"https://".data ++ x⟩ = ⟨"https://".data ++ x⟩ := by
  unfold replaceWwwScheme
  have h1 : isPrefixB "http://www.".data (String.data ⟨"https://".data ++ x⟩) = false := rfl
  have h2 : isPrefixB "https://www.".data (String.data ⟨"https://".data ++ x⟩) =
      isPrefixB "www.".data x := rfl
  rw [h1]
  rw [h2, hw]
  simp

theorem isPrefixB_www_append (h t : List Char) (c : Char) (t' : List Char)
    (hc : t = c :: t') (hc1 : c ≠ 'w') (hc2 : c ≠ '.') :
    isPrefixB "www.".data (h ++ t) = isPrefixB "www.".data h := by
  subst hc
  have hb1 : ('w' == c) = false := beq_eq_false_iff_ne.mpr (fun he => hc1 he.symm)
  have hb2 : ('.' == c) = false := beq_eq_false_iff_ne.mpr (fun he => hc2 he.symm)
  match h with
  | [] => simp [isPrefixB, hb1]
  | [a] => simp [isPrefixB, hb1]
  | [a, b] => simp [isPrefixB, hb1]
  | [a, b, d] => simp [isPrefixB, hb2]
  | a :: b :: d :: e :: rest => simp [isPrefixB]

theorem nonwww_after_strip (hcs tcs : List Char) (c : Char) (t' : List Char)
    (hct : tcs = c :: t') (hc1 : c ≠ 'w') (hc2 : c ≠ '.')
    (hw : isPrefixB "www.".data hcs = false) :
    isPrefixB "www.".data
      (if (hcs ++ tcs).getLast? = some '/' then (hcs ++ tcs).dropLast else hcs ++ tcs) =
      false := by
  by_cases hl : (hcs ++ tcs).getLast? = some '/'
  · rw [if_pos hl, hct, List.dropLast_append_of_ne_nil _ (by simp)]
    match t' with
    | [] =>
      rw [show (([c] : List Char)).dropLast = [] from rfl, List.append_nil]
      exact hw
    | b :: r =>
      rw [show ((c :: b :: r : List Char)).dropLast = c :: (b :: r).dropLast from rfl]
      rw [isPrefixB_www_append hcs _ c _ rfl hc1 hc2]
      exact hw
  · rw [if_neg hl, hct, isPrefixB_www_append hcs _ c t' rfl hc1 hc2]
    exact hw

theorem data_head_append (x y : String) (h : x.data ≠ []) :
    (x ++ y).data.head? = x.data.head? := by
  rw [String.data_append]
  cases hx : x.data with
  | nil => exact absurd hx h
  | cons a r => rfl

theorem data_append_ne_nil_left (x y : String) (h : x.data ≠ []) :
    (x ++ y).data ≠ [] := by
  rw [String.data_append]
  intro he
  exact h (List.append_eq_nil.mp he).1

/-- The serialised tail of a URL with a slash-rooted (or empty) path starts
with `:` (a kept port) or `/` (the pathname). -/
theorem tailStr_head (u : UrlParts)
    (hpo : u.path = "" ∨ u.path.data.head? = some '/') :
    (UrlParts.tailStr u).data.head? = some ':' ∨
      (UrlParts.tailStr u).data.head? = some '/' := by
  cases hp : u.port with
  | some p =>
    left
    simp only [UrlParts.tailStr, hp]
    have hA : (":" ++ natToStr p).data ≠ [] := by
      rw [show (":" ++ natToStr p).data = ':' :: (natToStr p).data from rfl]
      simp
    rw [data_head_append _ _ (data_append_ne_nil_left _ _ (data_append_ne_nil_left _ _ hA))]
    rw [data_head_append _ _ (data_append_ne_nil_left _ _ hA)]
    rw [data_head_append _ _ hA]
    rfl
  | none =>
    right
    simp only [UrlParts.tailStr, hp]
    have hpn : (UrlParts.pathname u).data.head? = some '/' ∧ (UrlParts.pathname u).data ≠ [] := by
      rcases hpo with hpe | hph
      · rw [show UrlParts.pathname u = "/" from by simp [UrlParts.pathname, hpe]]
        exact ⟨rfl, by simp⟩
      · have hpne : ¬ u.path = "" := by
          intro he
          rw [he] at hph
          cases hph
        rw [show UrlParts.pathname u = u.path from by simp [UrlParts.pathname, hpne]]
        refine ⟨hph, ?_⟩
        intro he
        rw [he] at hph
        cases hph
    have hE : ("" ++ UrlParts.pathname u) = UrlParts.pathname u := by
      exact String.ext (by rw [String.data_append]; rfl)
    rw [hE]
    rw [data_head_append _ _ (data_append_ne_nil_left _ _ hpn.2)]
    rw [data_head_append _ _ hpn.2]
    exact hpn.1

/-- C10 (amended): `normalizeUrl` folds a single leading `www.` label of an
`http` or `https` URL into the `https` scheme, so when the remaining host
does not itself start with `www.`, `normalizeUrl` of `http://www.X/p` equals
`normalizeUrl` of `https://X/p`, and the duplicate reconciler's exact key
identifies such a pair (equal titles assumed).  When `X` itself starts with
`www.` only one label is folded and the two normalise differently (see the
counterexample). -/
theorem c10_www_scheme_fold (s₁ s₂ : String) (u₁ u₂ : UrlParts)
    (h₁ : parseUrl s₁ = some u₁) (h₂ : parseUrl s₂ = some u₂)
    (hs₁ : u₁.scheme = "http") (hs₂ : u₂.scheme = "https")
    (hh : u₁.host = "www." ++ u₂.host)
    (hw : isPrefixB "www.".data u₂.host.data = false)
    (hpathok : u₂.path = "" ∨ u₂.path.data.head? = some '/')
    (hport : u₁.port = u₂.port) (hpath : u₁.path = u₂.path)
    (hparams : u₁.params = u₂.params) (hfrag : u₁.fragment = u₂.fragment) :
    normalizeUrl s₁ = normalizeUrl s₂ ∧
    (∀ b₁ b₂ : Bm, b₁.url = s₁ → b₂.url = s₂ →
      trimStr b₁.title = trimStr b₂.title → exactKey b₁ = exactKey b₂) := by
  have hnorm : normalizeUrl s₁ = normalizeUrl s₂ := by
    simp only [normalizeUrl, h₁, h₂]
    have htail : UrlParts.tailStr { u₁ with params := deleteTracking u₁.params } =
        UrlParts.tailStr { u₂ with params := deleteTracking u₂.params } := by
      simp [UrlParts.tailStr, UrlParts.pathname, UrlParts.search, hport, hpath, hparams, hfrag]
    have e₁ : UrlParts.toStr { u₁ with params := deleteTracking u₁.params } =
        "http://www." ++ (u₂.host ++
          UrlParts.tailStr { u₂ with params := deleteTracking u₂.params }) := by
      show u₁.scheme ++ "://" ++ u₁.host ++
          UrlParts.tailStr { u₁ with params := deleteTracking u₁.params } =
        "http://www." ++ (u₂.host ++
          UrlParts.tailStr { u₂ with params := deleteTracking u₂.params })
      rw [htail, hs₁, hh]
      rfl
    have e₂ : UrlParts.toStr { u₂ with params := deleteTracking u₂.params } =
        "https://" ++ (u₂.host ++
          UrlParts.tailStr { u₂ with params := deleteTracking u₂.params }) := by
      show u₂.scheme ++ "://" ++ u₂.host ++
          UrlParts.tailStr { u₂ with params := deleteTracking u₂.params } =
        "https://" ++ (u₂.host ++
          UrlParts.tailStr { u₂ with params := deleteTracking u₂.params })
      rw [hs₂]
      rfl
    rw [e₁, e₂]
    have hhead : (UrlParts.tailStr { u₂ with params := deleteTracking u₂.params }).data.head? =
          some ':' ∨
        (UrlParts.tailStr { u₂ with params := deleteTracking u₂.params }).data.head? =
          some '/' :=
      tailStr_head _ hpathok
    obtain ⟨c, t', htd, hcv⟩ : ∃ c t',
        (UrlParts.tailStr { u₂ with params := deleteTracking u₂.params }).data = c :: t' ∧
          (c = ':' ∨ c = '/') := by
      cases htd : (UrlParts.tailStr { u₂ with params := deleteTracking u₂.params }).data with
      | nil =>
        rw [htd] at hhead
        rcases hhead with h | h <;> cases h
      | cons a r =>
        rw [htd] at hhead
        refine ⟨a, r, rfl, ?_⟩
        rcases hhead with h | h
        · exact Or.inl (Option.some.inj h)
        · exact Or.inr (Option.some.inj h)
    have hxne : (u₂.host ++
        UrlParts.tailStr { u₂ with params := deleteTracking u₂.params }).data ≠ [] := by
      rw [String.data_append, htd]
      simp
    rw [strip_append _ _ hxne, strip_append _ _ hxne]
    rw [String.data_append u₂.host (UrlParts.tailStr { u₂ with params := deleteTracking u₂.params })]
    have hcw : c ≠ 'w' := by rcases hcv with h | h <;> (subst h; decide)
    have hcd : c ≠ '.' := by rcases hcv with h | h <;> (subst h; decide)
    have hM := nonwww_after_strip u₂.host.data
      (UrlParts.tailStr { u₂ with params := deleteTracking u₂.params }).data c t' htd hcw hcd hw
    rw [replace_http_www, replace_https_nonwww _ hM]
  refine ⟨hnorm, ?_⟩
  intro b₁ b₂ hu₁ hu₂ ht
  unfold exactKey
  rw [hu₁, hu₂, hnorm, ht]

/-- C10 (counterexample): the scheme-folding regex replaces only one
leading `www.`; when the host itself starts with `www.` the claimed
equality fails: `normalizeUrl "http://www.www.z/p"` is `"https://www.z/p"`
while `normalizeUrl "https://www.z/p"` is `"https://z/p"`. -/
theorem c10_counterexample :
    normalizeUrl "http://www.www.z/p" = "https://www.z/p" ∧
    normalizeUrl "https://www.z/p" = "https://z/p" ∧
    normalizeUrl "http://www.www.z/p" ≠ normalizeUrl "https://www.z/p" := by
  refine ⟨?_, ?_, ?_⟩ <;> decide

theorem c10_www_scheme_fold_witness :
    normalizeUrl "http://www.example.com/a" = normalizeUrl "https://example.com/a" :=
  (c10_www_scheme_fold "http://www.example.com/a" "https://example.com/a"
    { scheme := "http", host := "www.example.com", path := "/a" }
    { scheme := "https", host := "example.com", path := "/a" }
    (by decide) (by decide) rfl rfl rfl (by decide) (Or.inr rfl)
    rfl rfl rfl rfl).1

end SmartBookmarker
